import Mathlib

/-!
# hakrevdns: CIDR expansion and reverse-lookup output

A shallow embedding of `main.go` together with the parts of the Go standard
library (`net`, `net/netip`, `fmt`, `strings`) that `main.go` calls.  Byte
slices are lists of naturals below 256, a `nil` slice is the empty list, Go
strings are Lean strings read character by character.  A Go function that can
loop forever takes a `fuel` argument and answers `none` when the fuel runs out;
a run-time panic is the `panic` constructor of `Outcome`.

The library functions follow the sources of Go 1.22: `net.ParseCIDR` parses the
address with `netip.ParseAddr` and returns it in its 16-byte form, `IP.Mask` and
`IPNet.Contains` first bring an IPv4-mapped 16-byte address to its 4-byte form
(`IP.To4`), and `IP.String` prints such an address in dotted decimal.
-/

namespace Hakrevdns

/-! ## Go standard library: `net/netip` -/

namespace netip

/-- The `z` field of `netip.Addr`: invalid, IPv4, IPv6 without zone, IPv6 with zone. -/
inductive Z where
  | z0
  | z4
  | z6noz
  | z6zone (zone : String)
  deriving DecidableEq, Repr

/-- The type `netip.Addr`: a 128-bit number and the address family marker. -/
structure Addr where
  addr : Nat
  z : Z
  deriving DecidableEq, Repr

/-- Go's `Addr.BitLen`. -/
def Addr.BitLen (ip : Addr) : Nat :=
  match ip.z with
  | Z.z0 => 0
  | Z.z4 => 32
  | _ => 128

/-- Go's `Addr.Zone`. -/
def Addr.Zone (ip : Addr) : String :=
  match ip.z with
  | Z.z6zone zone => zone
  | _ => ""

/-- Go's `Addr.WithZone`. -/
def Addr.WithZone (ip : Addr) (zone : String) : Addr :=
  match ip.z with
  | Z.z0 => ip
  | Z.z4 => ip
  | _ => if zone = "" then { ip with z := Z.z6noz } else { ip with z := Z.z6zone zone }

/-- Big-endian encoding of `v` on `n` bytes (`bePutUint64` and friends). -/
def beBytes : Nat → Nat → List Nat
  | 0, _ => []
  | n + 1, v => beBytes n (v / 256) ++ [v % 256]

/-- Big-endian value of a byte string (`beUint64` and friends). -/
def beValue (ip : List Nat) : Nat := ip.foldl (fun acc b => acc * 256 + b) 0

/-- Go's `AddrFrom4`: the IPv4 address is stored as the IPv4-mapped IPv6 number. -/
def AddrFrom4 (a : List Nat) : Addr :=
  { addr := 0xffff00000000 + beValue (a.map (· % 256)), z := Z.z4 }

/-- Go's `AddrFrom16`. -/
def AddrFrom16 (a : List Nat) : Addr :=
  { addr := beValue (a.map (· % 256)) % 2 ^ 128, z := Z.z6noz }

/-- Go's `Addr.As16`. -/
def Addr.As16 (ip : Addr) : List Nat := beBytes 16 (ip.addr % 2 ^ 128)

/-- Loop state of `parseIPv4Fields`. -/
structure V4State where
  val : Nat
  pos : Nat
  digLen : Nat
  fields : List Nat

/-- The loop of `parseIPv4Fields` over the bytes of `s`; `n` is `len(s)`, `i` the index of
the head of the remaining input and `prev` the byte before it. -/
def parseIPv4FieldsLoop (n : Nat) : List Char → Nat → Char → V4State → Option V4State
  | [], _, _, st => some st
  | c :: cs, i, prev, st =>
    if '0' ≤ c ∧ c ≤ '9' then
      if st.digLen = 1 ∧ st.val = 0 then none
      else
        let val := st.val * 10 + (c.toNat - 48)
        if val > 255 then none
        else parseIPv4FieldsLoop n cs (i + 1) c { st with val := val, digLen := st.digLen + 1 }
    else if c = '.' then
      if i = 0 ∨ i + 1 = n ∨ prev = '.' then none
      else if st.pos = 3 then none
      else parseIPv4FieldsLoop n cs (i + 1) c
        { val := 0, digLen := 0, pos := st.pos + 1, fields := st.fields.set st.pos (st.val % 256) }
    else none

/-- Go's `parseIPv4Fields`: four decimal octets separated by dots, no leading zeros. -/
def parseIPv4Fields (s : List Char) : Option (List Nat) :=
  match parseIPv4FieldsLoop s.length s 0 ' ' { val := 0, pos := 0, digLen := 0, fields := [0, 0, 0, 0] } with
  | none => none
  | some st => if st.pos < 3 then none else some (st.fields.set 3 (st.val % 256))

/-- Go's `parseIPv4`. -/
def parseIPv4 (s : List Char) : Option Addr :=
  match parseIPv4Fields s with
  | none => none
  | some fields => some (AddrFrom4 fields)

/-- Value of a hexadecimal digit, `none` for any other byte. -/
def hexVal (c : Char) : Option Nat :=
  if '0' ≤ c ∧ c ≤ '9' then some (c.toNat - 48)
  else if 'a' ≤ c ∧ c ≤ 'f' then some (c.toNat - 97 + 10)
  else if 'A' ≤ c ∧ c ≤ 'F' then some (c.toNat - 65 + 10)
  else none

/-- The inner loop of `parseIPv6` reading one group of hex digits: returns `off`, `acc` and
`s[off:]`, or `none` on more than four digits. -/
def parseHexLoop : List Char → Nat → Nat → Option (Nat × Nat × List Char)
  | [], off, acc => some (off, acc, [])
  | c :: cs, off, acc =>
    match hexVal c with
    | none => some (off, acc, c :: cs)
    | some v =>
      let acc1 := ((acc <<< 4) + v) % 2 ^ 32
      if off > 3 then none
      else if acc1 > 65535 then none
      else parseHexLoop cs (off + 1) acc1

/-- Writes the four bytes `f` at `ip[i:i+4]`. -/
def putFields (ip : List Nat) (i : Nat) (f : List Nat) : List Nat :=
  (((ip.set i (f.getD 0 0)).set (i + 1) (f.getD 1 0)).set (i + 2) (f.getD 2 0)).set (i + 3) (f.getD 3 0)

/-- Loop state of `parseIPv6` when the main loop is left. -/
structure V6State where
  s : List Char
  ip : List Nat
  i : Nat
  ellipsis : Option Nat

/-- The main loop `for i < 16` of `parseIPv6`.  Every round that goes on adds 2 to `i`, so
nine units of fuel are never used up. -/
def parseIPv6Loop : Nat → List Char → List Nat → Nat → Option Nat → Option V6State
  | 0, s, ip, i, ellipsis => some { s := s, ip := ip, i := i, ellipsis := ellipsis }
  | fuel + 1, s, ip, i, ellipsis =>
    if ¬ i < 16 then some { s := s, ip := ip, i := i, ellipsis := ellipsis }
    else
      match parseHexLoop s 0 0 with
      | none => none
      | some (off, acc, rest) =>
        if off = 0 then none
        else if rest.head? = some '.' then
          if ellipsis.isNone ∧ i ≠ 12 then none
          else if i + 4 > 16 then none
          else
            match parseIPv4Fields s with
            | none => none
            | some f => some { s := [], ip := putFields ip i f, i := i + 4, ellipsis := ellipsis }
        else
          let ip1 := (ip.set i ((acc >>> 8) % 256)).set (i + 1) (acc % 256)
          match rest with
          | [] => some { s := [], ip := ip1, i := i + 2, ellipsis := ellipsis }
          | c :: rest1 =>
            if c ≠ ':' then none
            else
              match rest1 with
              | [] => none
              | ':' :: rest2 =>
                if ellipsis.isSome then none
                else if rest2 = [] then some { s := [], ip := ip1, i := i + 2, ellipsis := some (i + 2) }
                else parseIPv6Loop fuel rest2 ip1 (i + 2) (some (i + 2))
              | _ :: _ => parseIPv6Loop fuel rest1 ip1 (i + 2) ellipsis

/-- Go's `parseIPv6`: colon-separated hex groups, one `::`, an optional dotted tail and an
optional `%zone`. -/
def parseIPv6 (input : List Char) : Option Addr :=
  let s0 := input.takeWhile (· ≠ '%')
  let hasZone := input.contains '%'
  let zone := (input.dropWhile (· ≠ '%')).drop 1
  if hasZone ∧ zone = [] then none
  else
    let lead := s0.take 2 = [':', ':']
    let s1 := if lead then s0.drop 2 else s0
    let ellipsis0 : Option Nat := if lead then some 0 else none
    if lead ∧ s1 = [] then some ((AddrFrom16 (List.replicate 16 0)).WithZone (String.mk zone))
    else
      match parseIPv6Loop 9 s1 (List.replicate 16 0) 0 ellipsis0 with
      | none => none
      | some st =>
        if st.s ≠ [] then none
        else if st.i < 16 then
          match st.ellipsis with
          | none => none
          | some e =>
            let n := 16 - st.i
            let ip := st.ip.take e ++ List.replicate n 0 ++ (st.ip.drop e).take (st.i - e)
            some ((AddrFrom16 ip).WithZone (String.mk zone))
        else if st.ellipsis.isSome then none
        else some ((AddrFrom16 st.ip).WithZone (String.mk zone))

/-- The scan of `ParseAddr` for the first `.`, `:` or `%`. -/
def ParseAddrScan (s : List Char) : List Char → Option Addr
  | [] => none
  | c :: cs =>
    if c = '.' then parseIPv4 s
    else if c = ':' then parseIPv6 s
    else if c = '%' then none
    else ParseAddrScan s cs

/-- Go's `netip.ParseAddr`; `none` stands for a parse error. -/
def ParseAddr (s : List Char) : Option Addr := ParseAddrScan s s

/-- Go's `appendDecimal`: a byte in decimal. -/
def appendDecimal (b : List Char) (x : Nat) : List Char :=
  let b1 := if x ≥ 100 then b ++ [Nat.digitChar (x / 100)] else b
  let b2 := if x ≥ 10 then b1 ++ [Nat.digitChar (x / 10 % 10)] else b1
  b2 ++ [Nat.digitChar (x % 10)]

/-- Go's `appendHex`: a 16-bit group in lower-case hex without leading zeros. -/
def appendHex (b : List Char) (x : Nat) : List Char :=
  let b1 := if x ≥ 0x1000 then b ++ [Nat.digitChar (x >>> 12)] else b
  let b2 := if x ≥ 0x100 then b1 ++ [Nat.digitChar (x >>> 8 &&& 0xf)] else b1
  let b3 := if x ≥ 0x10 then b2 ++ [Nat.digitChar (x >>> 4 &&& 0xf)] else b2
  b3 ++ [Nat.digitChar (x &&& 0xf)]

/-- Go's `Addr.string4` on the four bytes of an IPv4 address. -/
def string4 (ip : List Nat) : List Char :=
  appendDecimal (appendDecimal (appendDecimal (appendDecimal [] (ip.getD 0 0) ++ ['.'])
    (ip.getD 1 0) ++ ['.']) (ip.getD 2 0) ++ ['.']) (ip.getD 3 0)

/-- Go's `Addr.v6u16`: the `i`-th 16-bit group of a 16-byte address. -/
def v6u16 (ip : List Nat) (i : Nat) : Nat := ip.getD (2 * i) 0 * 256 + ip.getD (2 * i + 1) 0

/-- The inner loop `for j < 8 && ip.v6u16(j) == 0` of `appendTo6`. -/
def zeroRunEnd (ip : List Nat) : Nat → Nat → Nat
  | 0, j => j
  | fuel + 1, j => if j < 8 ∧ v6u16 ip j = 0 then zeroRunEnd ip fuel (j + 1) else j

/-- The first loop of `appendTo6`: the first longest run of at least two zero groups. -/
def zeroRun (ip : List Nat) : Nat × Nat :=
  (List.range 8).foldl
    (fun (z : Nat × Nat) i =>
      let j := zeroRunEnd ip 8 i
      if j - i ≥ 2 ∧ j - i > z.2 - z.1 then (i, j) else z)
    (255, 255)

/-- The second loop of `appendTo6`. -/
def appendTo6Loop (ip : List Nat) (zeroStart zeroEnd : Nat) : Nat → Nat → List Char → List Char
  | 0, _, ret => ret
  | fuel + 1, i, ret =>
    if ¬ i < 8 then ret
    else if i = zeroStart then
      let ret1 := ret ++ [':', ':']
      if zeroEnd ≥ 8 then ret1
      else appendTo6Loop ip zeroStart zeroEnd fuel (zeroEnd + 1) (appendHex ret1 (v6u16 ip zeroEnd))
    else
      let ret1 := if i > 0 then ret ++ [':'] else ret
      appendTo6Loop ip zeroStart zeroEnd fuel (i + 1) (appendHex ret1 (v6u16 ip i))

/-- Go's `Addr.string6` on the sixteen bytes of an IPv6 address without zone. -/
def string6 (ip : List Nat) : List Char :=
  appendTo6Loop ip (zeroRun ip).1 (zeroRun ip).2 9 0 []

end netip

/-! ## Go standard library: `net` -/

namespace net

/-- The type `net.IP`, a byte slice. -/
abbrev IP := List Nat

/-- The type `net.IPMask`, a byte slice. -/
abbrev IPMask := List Nat

/-- The type `net.IPNet`. -/
structure IPNet where
  IP : IP
  Mask : IPMask
  deriving DecidableEq, Repr

/-- The type `net.ParseError`. -/
structure ParseError where
  Kind : String
  Text : String
  deriving DecidableEq, Repr

/-- Go's `ParseError.Error`. -/
def ParseError.Error (e : ParseError) : String := "invalid " ++ e.Kind ++ ": " ++ e.Text

/-- The constant `v4InV6Prefix`. -/
def v4InV6Prefix : List Nat := [0, 0, 0, 0, 0, 0, 0, 0, 0, 0, 0xff, 0xff]

/-- Go's `isZeros`. -/
def isZeros (p : List Nat) : Bool := p.all (· == 0)

/-- Go's `allFF`. -/
def allFF (b : List Nat) : Bool := b.all (· == 0xff)

/-- Go's `IP.To4`; `none` is Go's `nil`. -/
def IP.To4 (ip : IP) : Option IP :=
  if ip.length = 4 then some ip
  else if ip.length = 16 ∧ isZeros (ip.take 10) ∧ ip.getD 10 0 = 0xff ∧ ip.getD 11 0 = 0xff then
    some ((ip.drop 12).take 4)
  else none

/-- The loop of `CIDRMask`: `l` bytes are left to fill and `n` one bits are left to place. -/
def CIDRMaskLoop : Nat → Nat → List Nat
  | 0, _ => []
  | l + 1, n =>
    if n ≥ 8 then 0xff :: CIDRMaskLoop l (n - 8)
    else (0xff ^^^ (0xff >>> n)) :: CIDRMaskLoop l 0

/-- Go's `CIDRMask`. -/
def CIDRMask (ones bits : Nat) : IPMask :=
  if bits ≠ 32 ∧ bits ≠ 128 then []
  else if ones > bits then []
  else CIDRMaskLoop (bits / 8) ones

/-- Go's `IP.Mask`. -/
def IP.Mask (ip : IP) (mask : IPMask) : IP :=
  let mask1 := if mask.length = 16 ∧ ip.length = 4 ∧ allFF (mask.take 12) then mask.drop 12 else mask
  let ip1 := if mask1.length = 4 ∧ ip.length = 16 ∧ ip.take 12 = v4InV6Prefix then ip.drop 12 else ip
  if ip1.length ≠ mask1.length then []
  else List.zipWith (· &&& ·) ip1 mask1

/-- Go's `networkNumberAndMask`. -/
def networkNumberAndMask (n : IPNet) : IP × IPMask :=
  let ip? : Option IP :=
    match IP.To4 n.IP with
    | some x => some x
    | none => if n.IP.length ≠ 16 then none else some n.IP
  match ip? with
  | none => ([], [])
  | some ip =>
    if n.Mask.length = 4 then
      if ip.length ≠ 4 then ([], []) else (ip, n.Mask)
    else if n.Mask.length = 16 then
      if ip.length = 4 then (ip, n.Mask.drop 12) else (ip, n.Mask)
    else ([], [])

/-- Go's `IPNet.Contains`. -/
def IPNet.Contains (n : IPNet) (ip : net.IP) : Bool :=
  let nm := networkNumberAndMask n
  let ip1 := match IP.To4 ip with
    | some x => x
    | none => ip
  if ip1.length ≠ nm.1.length then false
  else (List.range ip1.length).all
    (fun i => nm.1.getD i 0 &&& nm.2.getD i 0 == ip1.getD i 0 &&& nm.2.getD i 0)

/-- Go's `hexString`: two lower-case hex digits per byte. -/
def hexString (b : List Nat) : List Char :=
  b.flatMap (fun x => [Nat.digitChar (x >>> 4), Nat.digitChar (x &&& 0xf)])

/-- Go's `IP.String`. -/
def IP.String (ip : IP) : String :=
  if ip.length = 0 then "<nil>"
  else if ip.length ≠ 4 ∧ ip.length ≠ 16 then String.mk ('?' :: hexString ip)
  else
    match IP.To4 ip with
    | some p4 => String.mk (netip.string4 p4)
    | none => String.mk (netip.string6 ip)

/-- The loop of `dtoi` over a decimal prefix of `s`; returns the number, the bytes consumed
and success. -/
def dtoiLoop : List Char → Nat → Nat → Nat × Nat × Bool
  | [], n, i => if i = 0 then (0, 0, false) else (n, i, true)
  | c :: cs, n, i =>
    if '0' ≤ c ∧ c ≤ '9' then
      let n1 := n * 10 + (c.toNat - 48)
      if n1 ≥ 0xFFFFFF then (0xFFFFFF, i, false) else dtoiLoop cs n1 (i + 1)
    else if i = 0 then (0, 0, false) else (n, i, true)

/-- Go's `dtoi`. -/
def dtoi (s : List Char) : Nat × Nat × Bool := dtoiLoop s 0 0

/-- Go's `net.ParseCIDR`: the address as 16 bytes and the network, or a `ParseError`. -/
def ParseCIDR (s : String) : Except ParseError (IP × IPNet) :=
  let cs := s.data
  if ¬ cs.contains '/' then Except.error { Kind := "CIDR address", Text := s }
  else
    let addr := cs.takeWhile (· ≠ '/')
    let mask := (cs.dropWhile (· ≠ '/')).drop 1
    match netip.ParseAddr addr with
    | none => Except.error { Kind := "CIDR address", Text := s }
    | some ipAddr =>
      if ipAddr.Zone ≠ "" then Except.error { Kind := "CIDR address", Text := s }
      else
        let r := dtoi mask
        if ¬ r.2.2 ∨ r.2.1 ≠ mask.length ∨ r.1 > ipAddr.BitLen then
          Except.error { Kind := "CIDR address", Text := s }
        else
          let m := CIDRMask r.1 ipAddr.BitLen
          let addr16 := ipAddr.As16
          Except.ok (addr16, { IP := IP.Mask addr16 m, Mask := m })

/-- The type `net.AddrError`. -/
structure AddrError where
  Err : String
  Addr : String
  deriving DecidableEq, Repr

/-- Go's `bytealg.IndexByteString`: the index of the first `c` in `s`, `none` for `-1`. -/
def indexByte (s : List Char) (c : Char) : Option Nat :=
  if s.indexOf c < s.length then some (s.indexOf c) else none

/-- Go's `bytealg.LastIndexByteString`: the index of the last `c` in `s`, `none` for `-1`. -/
def lastIndexByte (s : List Char) (c : Char) : Option Nat :=
  if s.reverse.indexOf c < s.length then some (s.length - 1 - s.reverse.indexOf c) else none

/-- What a dial goes on with once its address is split: the network, the host and the
port. -/
structure DialTarget where
  network : String
  host : String
  port : String
  deriving DecidableEq, Repr

/-- How the address step of a dial ends. -/
inductive DialResult where
  | target (t : DialTarget)
  | addrError (e : AddrError)
  deriving DecidableEq, Repr

/-- Go's `net.SplitHostPort`: the port starts after the last colon; a host with a colon of
its own must stand in brackets. -/
def SplitHostPort (hostport : String) : Except AddrError (String × String) :=
  let hp := hostport.data
  match lastIndexByte hp ':' with
  | none => Except.error { Err := "missing port in address", Addr := hostport }
  | some i =>
    let tail (host : List Char) (j k : Nat) : Except AddrError (String × String) :=
      if (indexByte (hp.drop j) '[').isSome then
        Except.error { Err := "unexpected '[' in address", Addr := hostport }
      else if (indexByte (hp.drop k) ']').isSome then
        Except.error { Err := "unexpected ']' in address", Addr := hostport }
      else Except.ok (String.mk host, String.mk (hp.drop (i + 1)))
    if hp.head? = some '[' then
      match indexByte hp ']' with
      | none => Except.error { Err := "missing ']' in address", Addr := hostport }
      | some e =>
        if e + 1 = hp.length then
          Except.error { Err := "missing port in address", Addr := hostport }
        else if e + 1 = i then tail ((hp.take e).drop 1) 1 (e + 1)
        else if hp.getD (e + 1) ' ' = ':' then
          Except.error { Err := "too many colons in address", Addr := hostport }
        else Except.error { Err := "missing port in address", Addr := hostport }
    else if (indexByte (hp.take i) ':').isSome then
      Except.error { Err := "too many colons in address", Addr := hostport }
    else tail (hp.take i) 0 0

/-- The address step of Go's `Dialer.DialContext` on a `tcp` or `udp` network
(`internetAddrList`): the address is split with `SplitHostPort`; when that fails the dial
returns the error and connects to nothing, otherwise it goes on to connect to the host and
port.  Name resolution and the connection itself are outside the model. -/
def DialContext (network address : String) : DialResult :=
  match SplitHostPort address with
  | Except.error e => DialResult.addrError e
  | Except.ok (host, port) =>
    DialResult.target { network := network, host := host, port := port }

end net

/-! ## Go standard library: `fmt` and `strings` -/

/-- Go's `fmt.Println` on string operands: joined by single spaces, then a newline. -/
def Println (args : List String) : String := " ".intercalate args ++ "\n"

/-- Go's `strings.TrimRight`: drops every trailing character that is in `cutset`. -/
def TrimRight (s cutset : String) : String :=
  String.mk (s.data.reverse.dropWhile (fun c => cutset.data.contains c)).reverse

/-- Following the spec's words (section 4.2, step 4): "strip a single trailing delimiter
(root-label dot) if present". -/
def stripRootDot (h : String) : String :=
  if h.data.getLast? = some '.' then String.mk h.data.dropLast else h

/-! ## `main.go` -/

/-- The `opts` struct (main.go:15-21). -/
structure Opts where
  Threads : Int
  ResolverIP : String
  Protocol : String
  Port : Nat
  Domain : Bool

/-- How a Go call can end: a normal return or a run-time panic. -/
inductive Outcome (α : Type) where
  | ret (v : α)
  | panic (msg : String)
  deriving DecidableEq, Repr

/-- Body of the loop of `incIP` (main.go:70-75); the first argument is `j + 1`. -/
def incIPLoop : Nat → net.IP → net.IP
  | 0, ip => ip
  | j + 1, ip =>
    let ip1 := ip.set j ((ip.getD j 0 + 1) % 256)
    if ip1.getD j 0 > 0 then ip1 else incIPLoop j ip1

/-- Function `incIP` (main.go:69-76); the slice is updated in place, the model returns its new
content. -/
def incIP (ip : net.IP) : net.IP := incIPLoop ip.length ip

/-- The loop of `expandCIDR` (main.go:62-64) from the current `ip` and `ips`; `none` when
the fuel runs out before `ipnet.Contains(ip)` fails. -/
def expandLoop (ipnet : net.IPNet) : Nat → net.IP → List String → Option (List String)
  | 0, _, _ => none
  | fuel + 1, ip, ips =>
    if ipnet.Contains ip then expandLoop ipnet fuel (incIP ip) (ips ++ [net.IP.String ip])
    else some ips

/-- The slice expression `ips[1 : len(ips)-1]` (main.go:66) with Go's bounds check: a
negative upper bound panics with `[:high]`, an upper bound below the lower one with
`[1:high]`. -/
def sliceInner (ips : List String) : Outcome (List String) :=
  if (ips.length : Int) - 1 < 0 then
    Outcome.panic ("runtime error: slice bounds out of range [:" ++
      toString ((ips.length : Int) - 1) ++ "]")
  else if (ips.length : Int) - 1 < 1 then
    Outcome.panic ("runtime error: slice bounds out of range [1:" ++
      toString ((ips.length : Int) - 1) ++ "]")
  else Outcome.ret ((ips.drop 1).take (ips.length - 2))

/-- Function `expandCIDR` (main.go:55-67): the pair `(ips, err)` it returns, a panic, or `none` when
the loop does not end within `fuel` rounds. -/
def expandCIDR (fuel : Nat) (cidr : String) :
    Option (Outcome (List String × Option net.ParseError)) :=
  match net.ParseCIDR cidr with
  | Except.error err => some (Outcome.ret ([], some err))
  | Except.ok (ip, ipnet) =>
    match expandLoop ipnet fuel (net.IP.Mask ip ipnet.Mask) [] with
    | none => none
    | some ips =>
      match sliceInner ips with
      | Outcome.panic msg => some (Outcome.panic msg)
      | Outcome.ret r => some (Outcome.ret (r, none))

/-- What the producer has done so far: the values sent on `work` and the lines written to
standard error. -/
structure Producer where
  sent : List String
  stderr : List String
  deriving DecidableEq, Repr

/-- One round of the scanner loop of `main` (main.go:40-50) for the input line `cidr`. -/
def producerStep (fuel : Nat) (st : Producer) (cidr : String) : Option (Outcome Producer) :=
  match expandCIDR fuel cidr with
  | none => none
  | some (Outcome.panic msg) => some (Outcome.panic msg)
  | some (Outcome.ret (_, some err)) =>
    some (Outcome.ret { st with stderr := st.stderr ++
      ["Error parsing CIDR " ++ cidr ++ ": " ++ err.Error ++ "\n"] })
  | some (Outcome.ret (ips, none)) =>
    some (Outcome.ret { st with sent := st.sent ++ ips })

/-- The scanner loop of `main` (main.go:40-50) over the lines of standard input. -/
def producer (fuel : Nat) : List String → Producer → Option (Outcome Producer)
  | [], st => some (Outcome.ret st)
  | cidr :: rest, st =>
    match producerStep fuel st cidr with
    | none => none
    | some (Outcome.panic msg) => some (Outcome.panic msg)
    | some (Outcome.ret st1) => producer fuel rest st1

/-- The values sent on `work` in an outcome of the producer. -/
def sentOf : Option (Outcome Producer) → Option (Outcome (List String))
  | none => none
  | some (Outcome.panic msg) => some (Outcome.panic msg)
  | some (Outcome.ret st) => some (Outcome.ret st.sent)

/-- The fields of `net.Resolver` that `doWork` sets (main.go:83-89); `Dial` answers with
the outcome of the dial it makes. -/
structure Resolver where
  PreferGo : Bool
  Dial : String → String → net.DialResult

/-- Go's `fmt.Sprintf("%s:%d", host, port)` (main.go:87). -/
def sprintfHostPort (host : String) (port : Nat) : String := host ++ ":" ++ toString port

/-- The resolver `r` built by `doWork` (main.go:80-90); `none` is the nil resolver, which
uses the system default. -/
def newResolver (opts : Opts) : Option Resolver :=
  if opts.ResolverIP ≠ "" then
    some (Resolver.mk true (fun _network _address =>
      net.DialContext opts.Protocol (sprintfHostPort opts.ResolverIP opts.Port)))
  else none

/-- Body of the `range work` loop of `doWork` (main.go:93-103) for one received `ip`: the
lines written to standard output.  `LookupAddr` is the resolver call, `none` its error. -/
def doWorkItem (opts : Opts) (LookupAddr : String → Option (List String)) (ip : String) :
    List String :=
  match LookupAddr ip with
  | none => []
  | some addr =>
    addr.map (fun a =>
      if opts.Domain then Println [TrimRight a "."]
      else Println [ip, "\t", a])

/-- The `range work` loop of `doWork` (main.go:92-104) over the values one worker
receives. -/
def doWork (opts : Opts) (LookupAddr : String → Option (List String)) (work : List String) :
    List String :=
  work.flatMap (doWorkItem opts LookupAddr)

/-! ## Big-endian numbers and `incIP` -/

theorem beValue_append_singleton (xs : List Nat) (b : Nat) :
    netip.beValue (xs ++ [b]) = netip.beValue xs * 256 + b := by
  simp [netip.beValue, List.foldl_append]

theorem beBytes_length (n v : Nat) : (netip.beBytes n v).length = n := by
  induction n generalizing v with
  | zero => rfl
  | succ n ih => simp [netip.beBytes, ih]

theorem beValue_lt (xs : List Nat) (h : ∀ b ∈ xs, b < 256) :
    netip.beValue xs < 256 ^ xs.length := by
  induction xs using List.reverseRecOn with
  | nil => simp [netip.beValue]
  | append_singleton xs b ih =>
    have hb : b < 256 := h b (by simp)
    have hx := ih (fun c hc => h c (by simp [hc]))
    rw [beValue_append_singleton, List.length_append, List.length_singleton, pow_succ]
    nlinarith

theorem beBytes_beValue (xs : List Nat) (h : ∀ b ∈ xs, b < 256) :
    netip.beBytes xs.length (netip.beValue xs) = xs := by
  induction xs using List.reverseRecOn with
  | nil => rfl
  | append_singleton xs b ih =>
    have hb : b < 256 := h b (by simp)
    have hx := ih (fun c hc => h c (by simp [hc]))
    rw [beValue_append_singleton, List.length_append, List.length_singleton, netip.beBytes]
    have h1 : (netip.beValue xs * 256 + b) / 256 = netip.beValue xs := by omega
    have h2 : (netip.beValue xs * 256 + b) % 256 = b := by omega
    rw [h1, h2, hx]

theorem incIPLoop_spec (j : Nat) (ip : List Nat) (hj : j ≤ ip.length)
    (h : ∀ b ∈ ip, b < 256) :
    incIPLoop j ip = netip.beBytes j ((netip.beValue (ip.take j) + 1) % 256 ^ j) ++ ip.drop j := by
  induction j generalizing ip with
  | zero => simp [incIPLoop, netip.beBytes]
  | succ j ih =>
    have hlt : j < ip.length := hj
    have hsplit : ip = ip.take j ++ ip[j] :: ip.drop (j + 1) := by
      conv_lhs => rw [← List.take_append_drop j ip]
      rw [List.drop_eq_getElem_cons hlt]
    have hb : ip[j] < 256 := h _ (List.getElem_mem _)
    have htk : ∀ b ∈ ip.take j, b < 256 := fun b hb => h b (List.mem_of_mem_take hb)
    have hV := beValue_lt _ htk
    have hlen : (ip.take j).length = j := by simp; omega
    rw [hlen] at hV
    have htake1 : ip.take (j + 1) = ip.take j ++ [ip[j]] := by
      rw [List.take_succ]; simp [List.getElem?_eq_getElem hlt]
    have hget : ip.getD j 0 = ip[j] := by
      simp [List.getD_eq_getElem?_getD, List.getElem?_eq_getElem hlt]
    have hset : ∀ x, ip.set j x = ip.take j ++ x :: ip.drop (j + 1) := by
      intro x
      rw [List.set_eq_take_append_cons_drop, if_pos hlt]
    have hset_get : ∀ x, (ip.set j x).getD j 0 = x := by
      intro x
      simp [List.getD_eq_getElem?_getD, List.getElem?_set, hlt]
    rw [incIPLoop]
    simp only [hset_get, hget]
    have hdrop : ip.drop j = ip[j] :: ip.drop (j + 1) := List.drop_eq_getElem_cons hlt
    by_cases hc : ip[j] + 1 < 256
    · have hm : (ip[j] + 1) % 256 = ip[j] + 1 := Nat.mod_eq_of_lt hc
      rw [hm, if_pos (by omega), hset, htake1, beValue_append_singleton]
      have hlt2 : netip.beValue (ip.take j) * 256 + ip[j] + 1 < 256 ^ (j + 1) := by
        rw [pow_succ]; omega
      rw [Nat.mod_eq_of_lt hlt2, netip.beBytes]
      have h1 : (netip.beValue (ip.take j) * 256 + ip[j] + 1) / 256 = netip.beValue (ip.take j) := by omega
      have h2 : (netip.beValue (ip.take j) * 256 + ip[j] + 1) % 256 = ip[j] + 1 := by omega
      rw [h1, h2]
      have := beBytes_beValue _ htk
      rw [hlen] at this
      rw [this]
      simp
    · have hb255 : ip[j] = 255 := by omega
      have hm : (ip[j] + 1) % 256 = 0 := by rw [hb255]
      rw [hm, if_neg (by omega), hset]
      have hvalid : ∀ b ∈ ip.take j ++ 0 :: ip.drop (j + 1), b < 256 := by
        intro b hb
        rcases List.mem_append.1 hb with hb | hb
        · exact htk b hb
        · rcases List.mem_cons.1 hb with hb | hb
          · omega
          · exact h b (List.mem_of_mem_drop hb)
      rw [ih _ (by simp; omega) hvalid]
      have ht2 : (ip.take j ++ 0 :: ip.drop (j + 1)).take j = ip.take j := by
        rw [List.take_append_of_le_length (by simp; omega)]
        simp
      have hd2 : (ip.take j ++ 0 :: ip.drop (j + 1)).drop j = 0 :: ip.drop (j + 1) := by
        rw [List.drop_append_of_le_length (by simp; omega)]
        simp [hlen]
      rw [ht2, hd2, htake1, beValue_append_singleton, hb255, netip.beBytes]
      have e : netip.beValue (ip.take j) * 256 + 255 + 1 = (netip.beValue (ip.take j) + 1) * 256 := by ring
      rw [e, pow_succ, Nat.mul_mod_mul_right, Nat.mul_div_cancel _ (by norm_num),
        Nat.mul_mod_left]
      simp

theorem incIPLoop_length (j : Nat) (ip : net.IP) : (incIPLoop j ip).length = ip.length := by
  induction j generalizing ip with
  | zero => rfl
  | succ j ih =>
    rw [incIPLoop]
    split
    · simp
    · rw [ih]; simp

theorem incIP_length (ip : net.IP) : (incIP ip).length = ip.length :=
  incIPLoop_length _ _

theorem incIP_eq_beBytes (ip : net.IP) (h : ∀ b ∈ ip, b < 256) :
    incIP ip = netip.beBytes ip.length ((netip.beValue ip + 1) % 256 ^ ip.length) := by
  have := incIPLoop_spec ip.length ip (le_refl _) h
  simpa [incIP] using this

/-! ## The block `0.0.0.0/0` -/

theorem contains_slash0 (ip : net.IP) (h : ip.length = 4) :
    net.IPNet.Contains { IP := [0, 0, 0, 0], Mask := [0, 0, 0, 0] } ip = true := by
  have hn : net.networkNumberAndMask { IP := [0, 0, 0, 0], Mask := [0, 0, 0, 0] }
      = ([0, 0, 0, 0], [0, 0, 0, 0]) := by decide
  have h4 : net.IP.To4 ip = some ip := by simp [net.IP.To4, h]
  match ip, h with
  | [a, b, c, d], _ =>
    simp [net.IPNet.Contains, hn, h4, List.range_succ]

theorem expandLoop_slash0 (fuel : Nat) (ip : net.IP) (ips : List String) (h : ip.length = 4) :
    expandLoop { IP := [0, 0, 0, 0], Mask := [0, 0, 0, 0] } fuel ip ips = none := by
  induction fuel generalizing ip ips with
  | zero => rfl
  | succ fuel ih =>
    rw [expandLoop, contains_slash0 ip h, if_pos rfl]
    exact ih _ _ (by rw [incIP_length, h])

theorem parseCIDR_slash0 :
    net.ParseCIDR "0.0.0.0/0" =
      Except.ok ([0, 0, 0, 0, 0, 0, 0, 0, 0, 0, 255, 255, 0, 0, 0, 0],
        { IP := [0, 0, 0, 0], Mask := [0, 0, 0, 0] }) := by
  rfl

/-! ## Parse errors and the producer -/

theorem parseCIDR_error_form (s : String) (err : net.ParseError)
    (h : net.ParseCIDR s = Except.error err) :
    err = { Kind := "CIDR address", Text := s } := by
  unfold net.ParseCIDR at h
  dsimp only at h
  split at h
  · injection h with h; exact h.symm
  · split at h
    · injection h with h; exact h.symm
    · split at h
      · injection h with h; exact h.symm
      · split at h
        · injection h with h; exact h.symm
        · cases h

theorem producerStep_sent (fuel : Nat) (st st1 : Producer) (cidr : String)
    (h : st.sent = st1.sent) :
    (∀ r, producerStep fuel st cidr = some (Outcome.ret r) →
      ∃ r1, producerStep fuel st1 cidr = some (Outcome.ret r1) ∧ r.sent = r1.sent) ∧
    (∀ msg, producerStep fuel st cidr = some (Outcome.panic msg) →
      producerStep fuel st1 cidr = some (Outcome.panic msg)) ∧
    (producerStep fuel st cidr = none → producerStep fuel st1 cidr = none) := by
  unfold producerStep
  rcases hx : expandCIDR fuel cidr with _ | ⟨⟨ips, _ | err⟩ | msg⟩ <;> simp [h]

theorem producer_sent (fuel : Nat) (lines : List String) (st st1 : Producer)
    (h : st.sent = st1.sent) :
    sentOf (producer fuel lines st) = sentOf (producer fuel lines st1) := by
  induction lines generalizing st st1 with
  | nil => simp [producer, sentOf, h]
  | cons cidr rest ih =>
    obtain ⟨h1, h2, h3⟩ := producerStep_sent fuel st st1 cidr h
    rw [producer, producer]
    rcases hx : producerStep fuel st cidr with _ | ⟨r | msg⟩
    · rw [h3 hx]
    · obtain ⟨r1, hr1, hs⟩ := h1 r hx
      rw [hr1]
      exact ih r r1 hs
    · rw [h2 msg hx]

theorem producer_append (fuel : Nat) (before after : List String) (st : Producer) :
    producer fuel (before ++ after) st =
      match producer fuel before st with
      | none => none
      | some (Outcome.panic msg) => some (Outcome.panic msg)
      | some (Outcome.ret st1) => producer fuel after st1 := by
  induction before generalizing st with
  | nil => simp [producer]
  | cons cidr rest ih =>
    rw [List.cons_append, producer, producer]
    rcases hx : producerStep fuel st cidr with _ | ⟨r | msg⟩
    · rfl
    · exact ih r
    · rfl

/-! ## Output of the workers -/

theorem Println_one (x : String) : Println [x] = x ++ "\n" := by
  simp [Println, String.intercalate, String.intercalate.go]

theorem Println_three (x y z : String) : Println [x, y, z] = x ++ " " ++ y ++ " " ++ z ++ "\n" := by
  simp [Println, String.intercalate, String.intercalate.go]

theorem dropWhile_dot (r : List Char) :
    ∃ k, r = List.replicate k '.' ++ r.dropWhile (fun c => ".".data.contains c) ∧
      (r.dropWhile (fun c => ".".data.contains c)).head? ≠ some '.' := by
  induction r with
  | nil => exact ⟨0, by simp⟩
  | cons c r ih =>
    by_cases hc : c = '.'
    · obtain ⟨k, hk, hh⟩ := ih
      refine ⟨k + 1, ?_, ?_⟩
      · subst hc
        have : List.dropWhile (fun c => ".".data.contains c) ('.' :: r)
            = List.dropWhile (fun c => ".".data.contains c) r := by
          rw [List.dropWhile_cons]; rfl
        rw [this, List.replicate_succ, List.cons_append, ← hk]
      · subst hc
        have : List.dropWhile (fun c => ".".data.contains c) ('.' :: r)
            = List.dropWhile (fun c => ".".data.contains c) r := by
          rw [List.dropWhile_cons]; rfl
        rw [this]; exact hh
    · have hp : (".".data.contains c) = false := by
        have : (c == '.') = false := by simpa using hc
        simp [List.contains, List.elem, this]
      have hd : List.dropWhile (fun c => ".".data.contains c) (c :: r) = c :: r := by
        rw [List.dropWhile_cons, hp]; rfl
      refine ⟨0, ?_, ?_⟩
      · rw [hd]; rfl
      · rw [hd]; simpa using hc

theorem TrimRight_dot (a : String) :
    ∃ k, a.data = (TrimRight a ".").data ++ List.replicate k '.' ∧
      (TrimRight a ".").data.getLast? ≠ some '.' := by
  obtain ⟨k, hk, hh⟩ := dropWhile_dot a.data.reverse
  refine ⟨k, ?_, ?_⟩
  · have := congrArg List.reverse hk
    simpa [TrimRight] using this
  · simpa [TrimRight, List.getLast?_reverse] using hh

theorem TrimRight_eq_stripRootDot (a : String) (h : ¬ List.IsSuffix ['.', '.'] a.data) :
    TrimRight a "." = stripRootDot a := by
  obtain ⟨k, hk, hl⟩ := TrimRight_dot a
  match k, hk with
  | 0, hk =>
    have e : (TrimRight a ".").data = a.data := by simpa using hk.symm
    have e1 : TrimRight a "." = a := String.ext e
    rw [e1] at hl
    rw [e1, stripRootDot, if_neg hl]
  | 1, hk =>
    have hlast : a.data.getLast? = some '.' := by rw [hk]; simp
    rw [stripRootDot, if_pos hlast]
    apply String.ext
    rw [hk]
    simp
  | k + 2, hk =>
    exfalso
    apply h
    refine ⟨(TrimRight a ".").data ++ List.replicate k '.', ?_⟩
    rw [hk, List.replicate_add, List.append_assoc]
    rfl

/-! ## Masks and containment as arithmetic -/

theorem beValue_nil : netip.beValue [] = 0 := rfl

theorem beValue_cons (b : Nat) (bs : List Nat) :
    netip.beValue (b :: bs) = b * 256 ^ bs.length + netip.beValue bs := by
  induction bs using List.reverseRecOn with
  | nil => simp [netip.beValue]
  | append_singleton bs c ih =>
    rw [← List.cons_append, beValue_append_singleton, beValue_append_singleton, ih,
      List.length_append, List.length_singleton, pow_succ]
    ring

theorem beBytes_lt (n v : Nat) : ∀ b ∈ netip.beBytes n v, b < 256 := by
  induction n generalizing v with
  | zero => simp [netip.beBytes]
  | succ n ih =>
    intro b hb
    rw [netip.beBytes, List.mem_append] at hb
    rcases hb with hb | hb
    · exact ih _ b hb
    · simp at hb; omega

theorem beValue_beBytes (n v : Nat) : netip.beValue (netip.beBytes n v) = v % 256 ^ n := by
  induction n generalizing v with
  | zero => simp [netip.beBytes, netip.beValue, Nat.mod_one]
  | succ n ih =>
    rw [netip.beBytes, beValue_append_singleton, ih, pow_succ, Nat.mul_comm (256 ^ n) 256,
      Nat.mod_mul]
    ring

theorem beBytes_mod (n v : Nat) : netip.beBytes n (v % 256 ^ n) = netip.beBytes n v := by
  have h := beBytes_beValue (netip.beBytes n v) (beBytes_lt n v)
  rw [beBytes_length, beValue_beBytes] at h
  exact h

theorem beBytes_inj (n v w : Nat) (hv : v < 256 ^ n) (hw : w < 256 ^ n)
    (h : netip.beBytes n v = netip.beBytes n w) : v = w := by
  have := congrArg netip.beValue h
  rwa [beValue_beBytes, beValue_beBytes, Nat.mod_eq_of_lt hv, Nat.mod_eq_of_lt hw] at this

theorem beBytes_append (a b v : Nat) :
    netip.beBytes (a + b) v = netip.beBytes a (v / 256 ^ b) ++ netip.beBytes b v := by
  induction b generalizing v with
  | zero => simp [netip.beBytes]
  | succ b ih =>
    rw [← Nat.add_assoc, netip.beBytes, ih, netip.beBytes, Nat.div_div_eq_div_mul, pow_succ,
      Nat.mul_comm 256, List.append_assoc]

set_option maxRecDepth 100000 in
theorem byte_land_mask : ∀ k < 8, ∀ b < 256,
    b &&& (0xff ^^^ (0xff >>> k)) = b / 2 ^ (8 - k) * 2 ^ (8 - k) := by
  decide

set_option maxRecDepth 100000 in
theorem byte_land_ff : ∀ b < 256, b &&& 0xff = b := by
  decide

theorem pow256 (l : Nat) : 256 ^ l = 2 ^ (8 * l) := by
  rw [pow_mul]; norm_num

theorem div_hi (x V l h : Nat) (hh : h ≤ 8 * l) :
    (x * 256 ^ l + V) / 2 ^ h = x * 2 ^ (8 * l - h) + V / 2 ^ h := by
  have e : 256 ^ l = 2 ^ h * 2 ^ (8 * l - h) := by
    rw [pow256, ← pow_add]; congr 1; omega
  rw [e, show x * (2 ^ h * 2 ^ (8 * l - h)) + V = V + 2 ^ h * (x * 2 ^ (8 * l - h)) by ring,
    Nat.add_mul_div_left _ _ (by positivity)]
  ring

theorem div_lo (x V l e : Nat) (hV : V < 256 ^ l) :
    (x * 256 ^ l + V) / 2 ^ (8 * l + e) = x / 2 ^ e := by
  rw [pow_add, ← pow256, ← Nat.div_div_eq_div_mul]
  congr 1
  rw [Nat.add_comm, Nat.mul_comm, Nat.add_mul_div_left _ _ (by positivity),
    Nat.div_eq_of_lt hV, Nat.zero_add]

theorem mask_value (l : Nat) : ∀ (p : Nat) (xs : List Nat), xs.length = l →
    (∀ b ∈ xs, b < 256) → p ≤ 8 * l →
    (List.zipWith (· &&& ·) xs (net.CIDRMaskLoop l p)).length = l ∧
    (∀ b ∈ List.zipWith (· &&& ·) xs (net.CIDRMaskLoop l p), b < 256) ∧
    netip.beValue (List.zipWith (· &&& ·) xs (net.CIDRMaskLoop l p)) =
      netip.beValue xs / 2 ^ (8 * l - p) * 2 ^ (8 * l - p) := by
  induction l with
  | zero =>
    intro p xs hl _ _
    have : xs = [] := List.length_eq_zero.1 hl
    subst this
    simp [net.CIDRMaskLoop, netip.beValue]
  | succ l ih =>
    intro p xs hl hx hp
    match xs, hl with
    | x :: xs, hl =>
      have hl1 : xs.length = l := by simpa using hl
      have hx0 : x < 256 := hx x (by simp)
      have hxs : ∀ b ∈ xs, b < 256 := fun b hb => hx b (by simp [hb])
      have hV := beValue_lt xs hxs
      rw [hl1] at hV
      rw [net.CIDRMaskLoop]
      by_cases h8 : p ≥ 8
      · rw [if_pos h8, List.zipWith_cons_cons]
        obtain ⟨i1, i2, i3⟩ := ih (p - 8) xs hl1 hxs (by omega)
        have hh : 8 * l - (p - 8) = 8 * (l + 1) - p := by omega
        refine ⟨by simp [i1], ?_, ?_⟩
        · intro b hb
          rcases List.mem_cons.1 hb with hb | hb
          · rw [hb, byte_land_ff x hx0]; exact hx0
          · exact i2 b hb
        · rw [beValue_cons, beValue_cons, i1, hl1, i3, hh, byte_land_ff x hx0,
            div_hi x _ l _ (by omega), add_mul]
          congr 1
          rw [mul_assoc, ← pow_add, pow256]
          congr 2
          omega
      · rw [if_neg h8, List.zipWith_cons_cons]
        obtain ⟨i1, i2, i3⟩ := ih 0 xs hl1 hxs (by omega)
        have hz : netip.beValue xs / 2 ^ (8 * l - 0) = 0 := by
          rw [Nat.sub_zero, ← pow256]; exact Nat.div_eq_of_lt hV
        rw [hz, Nat.zero_mul] at i3
        have hb := byte_land_mask p (by omega) x hx0
        refine ⟨by simp [i1], ?_, ?_⟩
        · intro b hb1
          rcases List.mem_cons.1 hb1 with hb1 | hb1
          · rw [hb1]
            exact lt_of_le_of_lt Nat.and_le_left hx0
          · exact i2 b hb1
        · rw [beValue_cons, beValue_cons, i1, hl1, i3, hb,
            show 8 * (l + 1) - p = 8 * l + (8 - p) by omega, div_lo x _ l _ hV, pow_add,
            ← pow256]
          ring

theorem mul_add_eq_iff (K x y a b : Nat) (ha : a < K) (hb : b < K) :
    x * K + a = y * K + b ↔ x = y ∧ a = b := by
  constructor
  · intro h
    rcases lt_trichotomy x y with hxy | hxy | hxy
    · have : (x + 1) * K ≤ y * K := Nat.mul_le_mul_right K hxy
      rw [add_mul] at this
      omega
    · subst hxy
      exact ⟨rfl, by omega⟩
    · have : (y + 1) * K ≤ x * K := Nat.mul_le_mul_right K hxy
      rw [add_mul] at this
      omega
  · rintro ⟨rfl, rfl⟩
    rfl

theorem sameMasked_iff (l : Nat) : ∀ (p : Nat) (xs ys : List Nat), xs.length = l →
    ys.length = l → (∀ b ∈ xs, b < 256) → (∀ b ∈ ys, b < 256) → p ≤ 8 * l →
    ((List.range l).all (fun i =>
        xs.getD i 0 &&& (net.CIDRMaskLoop l p).getD i 0 ==
          ys.getD i 0 &&& (net.CIDRMaskLoop l p).getD i 0) = true ↔
      netip.beValue xs / 2 ^ (8 * l - p) = netip.beValue ys / 2 ^ (8 * l - p)) := by
  induction l with
  | zero =>
    intro p xs ys hx hy _ _ _
    have : xs = [] := List.length_eq_zero.1 hx
    subst this
    have : ys = [] := List.length_eq_zero.1 hy
    subst this
    simp
  | succ l ih =>
    intro p xs ys hlx hly hx hy hp
    match xs, ys, hlx, hly with
    | x :: xs, y :: ys, hlx, hly =>
      have hlx1 : xs.length = l := by simpa using hlx
      have hly1 : ys.length = l := by simpa using hly
      have hx0 : x < 256 := hx x (by simp)
      have hy0 : y < 256 := hy y (by simp)
      have hxs : ∀ b ∈ xs, b < 256 := fun b hb => hx b (by simp [hb])
      have hys : ∀ b ∈ ys, b < 256 := fun b hb => hy b (by simp [hb])
      have hV := beValue_lt xs hxs
      have hW := beValue_lt ys hys
      rw [hlx1] at hV
      rw [hly1] at hW
      rw [List.range_succ_eq_map, List.all_cons, List.all_map, Bool.and_eq_true,
        beValue_cons, beValue_cons, hlx1, hly1, net.CIDRMaskLoop]
      by_cases h8 : p ≥ 8
      · rw [if_pos h8]
        have hh : 8 * l - (p - 8) = 8 * (l + 1) - p := by omega
        have i := ih (p - 8) xs ys hlx1 hly1 hxs hys (by omega)
        rw [hh] at i
        have hK : ∀ V, V < 256 ^ l →
            V / 2 ^ (8 * (l + 1) - p) < 2 ^ (8 * l - (8 * (l + 1) - p)) := by
          intro V hV
          apply Nat.div_lt_of_lt_mul
          have : 8 * (l + 1) - p + (8 * l - (8 * (l + 1) - p)) = 8 * l := by omega
          rw [← pow_add, this, ← pow256]
          exact hV
        rw [div_hi x _ l _ (by omega), div_hi y _ l _ (by omega),
          mul_add_eq_iff _ _ _ _ _ (hK _ hV) (hK _ hW), ← i]
        simp [Function.comp_def, byte_land_ff x hx0, byte_land_ff y hy0]
      · rw [if_neg h8]
        have i := ih 0 xs ys hlx1 hly1 hxs hys (by omega)
        have hz : ∀ V, V < 256 ^ l → V / 2 ^ (8 * l - 0) = 0 := by
          intro V hV
          rw [Nat.sub_zero, ← pow256]; exact Nat.div_eq_of_lt hV
        rw [hz _ hV, hz _ hW] at i
        have i1 := i.2 rfl
        rw [show 8 * (l + 1) - p = 8 * l + (8 - p) by omega, div_lo x _ l _ hV,
          div_lo y _ l _ hW]
        have hbx := byte_land_mask p (by omega) x hx0
        have hby := byte_land_mask p (by omega) y hy0
        simp only [Function.comp_def, List.getD_cons_zero, List.getD_cons_succ, beq_iff_eq]
        simp only [beq_iff_eq] at i1
        rw [hbx, hby]
        constructor
        · rintro ⟨h1, _⟩
          exact Nat.eq_of_mul_eq_mul_right (by positivity) h1
        · intro h1
          exact ⟨by rw [h1], i1⟩

/-! ## What `net.ParseCIDR` returns -/

theorem parseIPv4FieldsLoop_length (n : Nat) (s : List Char) :
    ∀ (i : Nat) (prev : Char) (st st1 : netip.V4State),
      netip.parseIPv4FieldsLoop n s i prev st = some st1 →
      st1.fields.length = st.fields.length := by
  induction s with
  | nil =>
    intro i prev st st1 h
    simp only [netip.parseIPv4FieldsLoop, Option.some.injEq] at h
    rw [h]
  | cons c cs ih =>
    intro i prev st st1 h
    rw [netip.parseIPv4FieldsLoop] at h
    split at h
    · split at h
      · cases h
      · dsimp only at h
        split at h
        · cases h
        · have := ih _ _ _ _ h
          simpa using this
    · split at h
      · split at h
        · cases h
        · split at h
          · cases h
          · have := ih _ _ _ _ h
            simpa using this
      · cases h

theorem parseIPv4Fields_length (s : List Char) (f : List Nat)
    (h : netip.parseIPv4Fields s = some f) : f.length = 4 := by
  unfold netip.parseIPv4Fields at h
  split at h
  · cases h
  · rename_i st hst
    split at h
    · cases h
    · have := parseIPv4FieldsLoop_length _ _ _ _ _ _ hst
      simp only [Option.some.injEq] at h
      rw [← h]
      simpa using this

theorem beValue_mod_lt (f : List Nat) :
    netip.beValue (f.map (· % 256)) < 256 ^ f.length := by
  have := beValue_lt (f.map (· % 256)) (by
    intro b hb
    obtain ⟨a, _, rfl⟩ := List.mem_map.1 hb
    exact Nat.mod_lt _ (by norm_num))
  simpa using this

theorem parseIPv4_shape (s : List Char) (a : netip.Addr) (h : netip.parseIPv4 s = some a) :
    ((a.z = netip.Z.z4 ∧ ∃ x, x < 2 ^ 32 ∧ a.addr = 0xffff00000000 + x) ∨
      (a.BitLen = 128 ∧ a.addr < 2 ^ 128)) := by
  unfold netip.parseIPv4 at h
  split at h
  · cases h
  · rename_i f hf
    simp only [Option.some.injEq] at h
    subst h
    left
    refine ⟨rfl, _, ?_, rfl⟩
    have := beValue_mod_lt f
    rw [parseIPv4Fields_length s f hf] at this
    exact this

theorem withZone_shape (ip : List Nat) (zone : String) :
    (((netip.AddrFrom16 ip).WithZone zone).z = netip.Z.z4 ∧
        ∃ x, x < 2 ^ 32 ∧ ((netip.AddrFrom16 ip).WithZone zone).addr = 0xffff00000000 + x) ∨
      (((netip.AddrFrom16 ip).WithZone zone).BitLen = 128 ∧
        ((netip.AddrFrom16 ip).WithZone zone).addr < 2 ^ 128) := by
  right
  have hlt : netip.beValue (ip.map (· % 256)) % 2 ^ 128 < 2 ^ 128 := Nat.mod_lt _ (by positivity)
  by_cases hz : zone = ""
  · simp only [netip.Addr.WithZone, netip.AddrFrom16, netip.Addr.BitLen, hz, if_true]
    exact ⟨trivial, hlt⟩
  · simp only [netip.Addr.WithZone, netip.AddrFrom16, netip.Addr.BitLen, hz, if_false]
    exact ⟨trivial, hlt⟩

theorem parseIPv6_shape (s : List Char) (a : netip.Addr) (h : netip.parseIPv6 s = some a) :
    ((a.z = netip.Z.z4 ∧ ∃ x, x < 2 ^ 32 ∧ a.addr = 0xffff00000000 + x) ∨
      (a.BitLen = 128 ∧ a.addr < 2 ^ 128)) := by
  unfold netip.parseIPv6 at h
  dsimp only at h
  repeat' split at h
  all_goals first
    | (cases h; done)
    | (simp only [Option.some.injEq] at h
       subst h
       exact withZone_shape _ _)

theorem parseAddrScan_shape (s : List Char) (a : netip.Addr) :
    ∀ t, netip.ParseAddrScan s t = some a →
    ((a.z = netip.Z.z4 ∧ ∃ x, x < 2 ^ 32 ∧ a.addr = 0xffff00000000 + x) ∨
      (a.BitLen = 128 ∧ a.addr < 2 ^ 128)) := by
  intro t
  induction t with
  | nil => intro h; cases h
  | cons c cs ih =>
    intro h
    rw [netip.ParseAddrScan] at h
    split at h
    · exact parseIPv4_shape s a h
    · split at h
      · exact parseIPv6_shape s a h
      · split at h
        · cases h
        · exact ih h

theorem parseCIDR_ok (s : String) (ip : net.IP) (ipnet : net.IPNet)
    (h : net.ParseCIDR s = Except.ok (ip, ipnet)) :
    ∃ a : netip.Addr,
      ((a.z = netip.Z.z4 ∧ ∃ x, x < 2 ^ 32 ∧ a.addr = 0xffff00000000 + x) ∨
      (a.BitLen = 128 ∧ a.addr < 2 ^ 128)) ∧
      ip = a.As16 ∧ ipnet.IP = net.IP.Mask ip ipnet.Mask ∧
      ∃ p, p ≤ a.BitLen ∧ ipnet.Mask = net.CIDRMask p a.BitLen := by
  unfold net.ParseCIDR at h
  dsimp only at h
  split at h
  · cases h
  · split at h
    · cases h
    · rename_i a ha
      split at h
      · cases h
      · split at h
        · cases h
        · rename_i hc
          injection h with h
          injection h with h1 h2
          subst h1
          subst h2
          refine ⟨a, parseAddrScan_shape _ _ _ ha, rfl, rfl, _, ?_, rfl⟩
          push_neg at hc
          omega

/-! ## The loop of `expandCIDR` -/

theorem incIP_beBytes (n v : Nat) : incIP (netip.beBytes n v) = netip.beBytes n (v + 1) := by
  rw [incIP_eq_beBytes _ (beBytes_lt n v), beBytes_length, beValue_beBytes, Nat.mod_add_mod,
    beBytes_mod]

theorem expandLoop_run (ipnet : net.IPNet) (n base cnt : Nat)
    (hin : ∀ j, j < cnt → ipnet.Contains (netip.beBytes n (base + j)) = true)
    (hout : ipnet.Contains (netip.beBytes n (base + cnt)) = false) :
    ∀ (d k : Nat), k + d = cnt → ∀ (ips : List String) (fuel : Nat), d < fuel →
      expandLoop ipnet fuel (netip.beBytes n (base + k)) ips =
        some (ips ++ (List.range' k d).map
          (fun j => net.IP.String (netip.beBytes n (base + j)))) := by
  intro d
  induction d with
  | zero =>
    intro k hk ips fuel hf
    obtain ⟨f, rfl⟩ : ∃ f, fuel = f + 1 := ⟨fuel - 1, by omega⟩
    have : k = cnt := by omega
    subst this
    rw [expandLoop, hout]
    simp
  | succ d ih =>
    intro k hk ips fuel hf
    obtain ⟨f, rfl⟩ : ∃ f, fuel = f + 1 := ⟨fuel - 1, by omega⟩
    rw [expandLoop, hin k (by omega), if_pos rfl, incIP_beBytes, Nat.add_assoc,
      ih (k + 1) (by omega) _ f (by omega), List.range'_succ]
    simp

theorem expandLoop_block (ipnet : net.IPNet) (n base cnt : Nat)
    (hin : ∀ j, j < cnt → ipnet.Contains (netip.beBytes n (base + j)) = true)
    (hout : ipnet.Contains (netip.beBytes n (base + cnt)) = false)
    (fuel : Nat) (hf : cnt < fuel) :
    expandLoop ipnet fuel (netip.beBytes n base) [] =
      some ((List.range' 0 cnt).map (fun j => net.IP.String (netip.beBytes n (base + j)))) := by
  have := expandLoop_run ipnet n base cnt hin hout cnt 0 (by omega) [] fuel hf
  simpa using this

theorem sliceInner_map (f : Nat → String) (cnt : Nat) (h : 2 ≤ cnt) :
    sliceInner ((List.range' 0 cnt).map f) =
      Outcome.ret ((List.range' 1 (cnt - 2)).map f) := by
  unfold sliceInner
  have hl : ((List.range' 0 cnt).map f).length = cnt := by simp
  rw [hl, if_neg (by omega), if_neg (by omega)]
  congr 1
  rw [← List.map_drop, ← List.map_take]
  congr 1
  obtain ⟨c, rfl⟩ : ∃ c, cnt = c + 2 := ⟨cnt - 2, by omega⟩
  rw [List.range'_succ, List.drop_succ_cons, List.drop_zero, List.range'_1_concat,
    show c + 2 - 2 = c by omega, List.take_left' (by simp)]

/-! ## `IPNet.Contains` on the networks that `net.ParseCIDR` builds -/

theorem CIDRMaskLoop_length (l p : Nat) : (net.CIDRMaskLoop l p).length = l := by
  induction l generalizing p with
  | zero => rfl
  | succ l ih =>
    rw [net.CIDRMaskLoop]
    split <;> simp [ih]

theorem To4_length4 (ip : net.IP) (h : ip.length = 4) : net.IP.To4 ip = some ip := by
  simp [net.IP.To4, h]

theorem To4_length16 (ip : net.IP) (h : ip.length = 16) :
    net.IP.To4 ip = if ip.take 12 = net.v4InV6Prefix then some (ip.drop 12) else none := by
  match ip, h with
  | [a0, a1, a2, a3, a4, a5, a6, a7, a8, a9, a10, a11, a12, a13, a14, a15], _ =>
    simp [net.IP.To4, net.isZeros, net.v4InV6Prefix, and_assoc]

theorem contains_v4 (base ip : List Nat) (p : Nat) (hb : base.length = 4) (hi : ip.length = 4)
    (hbv : ∀ b ∈ base, b < 256) (hiv : ∀ b ∈ ip, b < 256) (hp : p ≤ 32) :
    net.IPNet.Contains { IP := base, Mask := net.CIDRMaskLoop 4 p } ip = true ↔
      netip.beValue base / 2 ^ (32 - p) = netip.beValue ip / 2 ^ (32 - p) := by
  have hn : net.networkNumberAndMask { IP := base, Mask := net.CIDRMaskLoop 4 p } =
      (base, net.CIDRMaskLoop 4 p) := by
    simp [net.networkNumberAndMask, To4_length4 base hb, CIDRMaskLoop_length, hb]
  unfold net.IPNet.Contains
  simp only [hn, To4_length4 ip hi, hi, hb, ne_eq, not_true_eq_false, if_false]
  exact sameMasked_iff 4 p base ip hb hi hbv hiv (by omega)

theorem contains_v6_plain (base ip : List Nat) (p : Nat) (hb : base.length = 16)
    (hi : ip.length = 16) (hbv : ∀ b ∈ base, b < 256) (hiv : ∀ b ∈ ip, b < 256)
    (hp : p ≤ 128) (hbm : base.take 12 ≠ net.v4InV6Prefix) :
    net.IPNet.Contains { IP := base, Mask := net.CIDRMaskLoop 16 p } ip = true ↔
      ip.take 12 ≠ net.v4InV6Prefix ∧
      netip.beValue base / 2 ^ (128 - p) = netip.beValue ip / 2 ^ (128 - p) := by
  have hn : net.networkNumberAndMask { IP := base, Mask := net.CIDRMaskLoop 16 p } =
      (base, net.CIDRMaskLoop 16 p) := by
    simp [net.networkNumberAndMask, To4_length16 base hb, CIDRMaskLoop_length, hb, hbm]
  unfold net.IPNet.Contains
  by_cases him : ip.take 12 = net.v4InV6Prefix
  · simp [hn, To4_length16 ip hi, him, hi, hb]
  · simp only [hn, To4_length16 ip hi, him, hi, hb, ne_eq, not_true_eq_false, if_false,
      not_false_eq_true, true_and]
    exact sameMasked_iff 16 p base ip hb hi hbv hiv (by omega)

theorem CIDRMaskLoop_ones (a b p : Nat) (h : 8 * a ≤ p) :
    net.CIDRMaskLoop (a + b) p = List.replicate a 0xff ++ net.CIDRMaskLoop b (p - 8 * a) := by
  induction a generalizing p with
  | zero => simp
  | succ a ih =>
    rw [show a + 1 + b = (a + b) + 1 by omega, net.CIDRMaskLoop, if_pos (by omega),
      ih (p - 8) (by omega), List.replicate_succ, List.cons_append]
    congr 3
    omega

theorem contains_v6_mapped (base ip : List Nat) (p : Nat) (hb : base.length = 16)
    (hi : ip.length = 16) (hbv : ∀ b ∈ base, b < 256) (hiv : ∀ b ∈ ip, b < 256)
    (hp : p ≤ 128) (hp96 : 96 ≤ p) (hbm : base.take 12 = net.v4InV6Prefix) :
    net.IPNet.Contains { IP := base, Mask := net.CIDRMaskLoop 16 p } ip = true ↔
      ip.take 12 = net.v4InV6Prefix ∧
      netip.beValue (base.drop 12) / 2 ^ (128 - p) =
        netip.beValue (ip.drop 12) / 2 ^ (128 - p) := by
  have hm : (net.CIDRMaskLoop 16 p).drop 12 = net.CIDRMaskLoop 4 (p - 96) := by
    rw [show (16 : Nat) = 12 + 4 by rfl, CIDRMaskLoop_ones 12 4 p (by omega),
      List.drop_left' (by simp)]
  have hn : net.networkNumberAndMask { IP := base, Mask := net.CIDRMaskLoop 16 p } =
      (base.drop 12, net.CIDRMaskLoop 4 (p - 96)) := by
    simp [net.networkNumberAndMask, To4_length16 base hb, CIDRMaskLoop_length, hb, hbm, hm]
  have hbd : (base.drop 12).length = 4 := by simp [hb]
  have hid : (ip.drop 12).length = 4 := by simp [hi]
  unfold net.IPNet.Contains
  by_cases him : ip.take 12 = net.v4InV6Prefix
  · simp only [hn, To4_length16 ip hi, him, if_true, hbd, hid, ne_eq, not_true_eq_false,
      if_false, true_and]
    have := sameMasked_iff 4 (p - 96) (base.drop 12) (ip.drop 12) hbd hid
      (fun b hb1 => hbv b (List.mem_of_mem_drop hb1))
      (fun b hb1 => hiv b (List.mem_of_mem_drop hb1)) (by omega)
    rw [show 8 * 4 - (p - 96) = 128 - p by omega] at this
    exact this
  · simp [hn, To4_length16 ip hi, him, hi, hb]

theorem beBytes16_take (v : Nat) :
    (netip.beBytes 16 v).take 12 = netip.beBytes 12 (v / 2 ^ 32) := by
  rw [show (16 : Nat) = 12 + 4 by rfl, beBytes_append, List.take_left' (beBytes_length _ _)]
  norm_num

theorem beBytes16_drop (v : Nat) : (netip.beBytes 16 v).drop 12 = netip.beBytes 4 v := by
  rw [show (16 : Nat) = 12 + 4 by rfl, beBytes_append, List.drop_left' (beBytes_length _ _)]

theorem v4InV6Prefix_eq : net.v4InV6Prefix = netip.beBytes 12 0xffff := by decide

theorem beBytes16_mapped (v : Nat) (hv : v < 2 ^ 128) :
    (netip.beBytes 16 v).take 12 = net.v4InV6Prefix ↔ v / 2 ^ 32 = 0xffff := by
  rw [beBytes16_take, v4InV6Prefix_eq]
  constructor
  · intro h
    refine beBytes_inj 12 _ _ ?_ (by norm_num) h
    apply Nat.div_lt_of_lt_mul
    norm_num at hv ⊢
    exact hv
  · intro h
    rw [h]

theorem CIDRMask_eq (p bits : Nat) (hb : bits = 32 ∨ bits = 128) (hp : p ≤ bits) :
    net.CIDRMask p bits = net.CIDRMaskLoop (bits / 8) p := by
  unfold net.CIDRMask
  rcases hb with rfl | rfl
  · rw [if_neg (by omega), if_neg (by omega)]
  · rw [if_neg (by omega), if_neg (by omega)]

theorem zipWith_mask_eq (l p : Nat) (x : Nat) (hx : x < 256 ^ l) (hp : p ≤ 8 * l) :
    List.zipWith (· &&& ·) (netip.beBytes l x) (net.CIDRMaskLoop l p) =
      netip.beBytes l (x / 2 ^ (8 * l - p) * 2 ^ (8 * l - p)) := by
  obtain ⟨h1, h2, h3⟩ := mask_value l p (netip.beBytes l x) (beBytes_length l x)
    (beBytes_lt l x) hp
  have := beBytes_beValue _ h2
  rw [h1, h3, beValue_beBytes, Nat.mod_eq_of_lt hx] at this
  exact this.symm

theorem IP_Mask_v4 (ip mask : List Nat) (hm : mask.length = 4) (hi : ip.length = 16)
    (hp : ip.take 12 = net.v4InV6Prefix) :
    net.IP.Mask ip mask = List.zipWith (· &&& ·) (ip.drop 12) mask := by
  unfold net.IP.Mask
  simp [hm, hi, hp]

theorem IP_Mask_v6 (ip mask : List Nat) (hm : mask.length = 16) (hi : ip.length = 16) :
    net.IP.Mask ip mask = List.zipWith (· &&& ·) ip mask := by
  unfold net.IP.Mask
  simp [hm, hi]

theorem mask_v4 (x p : Nat) (hx : x < 2 ^ 32) (hp : p ≤ 32) :
    net.IP.Mask (netip.beBytes 16 (0xffff00000000 + x)) (net.CIDRMaskLoop 4 p) =
      netip.beBytes 4 (x / 2 ^ (32 - p) * 2 ^ (32 - p)) := by
  have htake : (netip.beBytes 16 (0xffff00000000 + x)).take 12 = net.v4InV6Prefix := by
    rw [beBytes16_mapped _ (by omega)]
    omega
  have hdrop : (netip.beBytes 16 (0xffff00000000 + x)).drop 12 = netip.beBytes 4 x := by
    rw [beBytes16_drop, ← beBytes_mod]
    congr 1
    norm_num
    omega
  rw [IP_Mask_v4 _ _ (CIDRMaskLoop_length 4 p) (beBytes_length _ _) htake, hdrop]
  have h256 : x < 256 ^ 4 := by norm_num; omega
  have := zipWith_mask_eq 4 p x h256 (by omega)
  rw [show 8 * 4 - p = 32 - p by omega] at this
  exact this

theorem mask_v6 (x p : Nat) (hx : x < 2 ^ 128) (hp : p ≤ 128) :
    net.IP.Mask (netip.beBytes 16 x) (net.CIDRMaskLoop 16 p) =
      netip.beBytes 16 (x / 2 ^ (128 - p) * 2 ^ (128 - p)) := by
  rw [IP_Mask_v6 _ _ (CIDRMaskLoop_length 16 p) (beBytes_length _ _)]
  have h256 : x < 256 ^ 16 := by norm_num; omega
  have := zipWith_mask_eq 16 p x h256 (by omega)
  rw [show 8 * 16 - p = 128 - p by omega] at this
  exact this

/-! ## Arithmetic of an aligned block -/

theorem block_quot_lt (N p x : Nat) (hp : p ≤ N) (hx : x < 2 ^ N) :
    x / 2 ^ (N - p) < 2 ^ p := by
  apply Nat.div_lt_of_lt_mul
  rw [← pow_add, show N - p + p = N by omega]
  exact hx

theorem block_lt (N p x j : Nat) (hp : p ≤ N) (hx : x < 2 ^ N) (hj : j < 2 ^ (N - p)) :
    x / 2 ^ (N - p) * 2 ^ (N - p) + j < 2 ^ N := by
  have hq := block_quot_lt N p x hp hx
  have h1 : (x / 2 ^ (N - p) + 1) * 2 ^ (N - p) ≤ 2 ^ p * 2 ^ (N - p) :=
    Nat.mul_le_mul_right _ hq
  rw [← pow_add, show p + (N - p) = N by omega, add_mul, one_mul] at h1
  omega

theorem block_quot (h q j : Nat) (hj : j < 2 ^ h) : (q * 2 ^ h + j) / 2 ^ h = q := by
  rw [Nat.add_comm, Nat.add_mul_div_right _ _ (by positivity), Nat.div_eq_of_lt hj,
    Nat.zero_add]

theorem block_end (N p x : Nat) (hp1 : 1 ≤ p) (hp : p ≤ N) (hx : x < 2 ^ N) :
    (x / 2 ^ (N - p) * 2 ^ (N - p) + 2 ^ (N - p)) % 2 ^ N / 2 ^ (N - p) ≠ x / 2 ^ (N - p) := by
  have hq := block_quot_lt N p x hp hx
  have hK : 0 < 2 ^ (N - p) := by positivity
  have hPK : 2 ^ p * 2 ^ (N - p) = 2 ^ N := by
    rw [← pow_add, show p + (N - p) = N by omega]
  have e : x / 2 ^ (N - p) * 2 ^ (N - p) + 2 ^ (N - p) =
      (x / 2 ^ (N - p) + 1) * 2 ^ (N - p) := by ring
  rw [e]
  by_cases hc : x / 2 ^ (N - p) + 1 < 2 ^ p
  · have hlt : (x / 2 ^ (N - p) + 1) * 2 ^ (N - p) < 2 ^ N := by
      rw [← hPK]
      exact Nat.mul_lt_mul_of_pos_right hc hK
    rw [Nat.mod_eq_of_lt hlt, Nat.mul_div_cancel _ hK]
    omega
  · have hq1 : x / 2 ^ (N - p) + 1 = 2 ^ p := by omega
    rw [hq1, hPK, Nat.mod_self, Nat.zero_div]
    have : 2 ≤ 2 ^ p := by
      calc 2 = 2 ^ 1 := by norm_num
        _ ≤ 2 ^ p := Nat.pow_le_pow_right (by norm_num) hp1
    omega

/-! ## The loop on an IPv4 block -/

theorem expandLoop_v4 (x p fuel : Nat) (hx : x < 2 ^ 32) (hp1 : 1 ≤ p) (hp : p ≤ 32)
    (hf : 2 ^ (32 - p) < fuel) :
    expandLoop (net.IPNet.mk (netip.beBytes 4 (x / 2 ^ (32 - p) * 2 ^ (32 - p)))
        (net.CIDRMaskLoop 4 p)) fuel
        (netip.beBytes 4 (x / 2 ^ (32 - p) * 2 ^ (32 - p))) [] =
      some ((List.range' 0 (2 ^ (32 - p))).map (fun j =>
        net.IP.String (netip.beBytes 4 (x / 2 ^ (32 - p) * 2 ^ (32 - p) + j)))) := by
  have h256 : (256 : Nat) ^ 4 = 2 ^ 32 := by norm_num
  have hc : ∀ v, net.IPNet.Contains (net.IPNet.mk
      (netip.beBytes 4 (x / 2 ^ (32 - p) * 2 ^ (32 - p))) (net.CIDRMaskLoop 4 p))
      (netip.beBytes 4 v) = true ↔
      x / 2 ^ (32 - p) = v % 2 ^ 32 / 2 ^ (32 - p) := by
    intro v
    rw [contains_v4 _ _ p (beBytes_length _ _) (beBytes_length _ _) (beBytes_lt _ _)
      (beBytes_lt _ _) hp, beValue_beBytes, beValue_beBytes, h256,
      Nat.mod_eq_of_lt (by simpa using block_lt 32 p x 0 hp hx (by positivity)),
      Nat.mul_div_cancel _ (by positivity)]
  apply expandLoop_block _ 4 _ _ _ _ fuel hf
  · intro j hj
    rw [hc, Nat.mod_eq_of_lt (block_lt 32 p x j hp hx hj), block_quot _ _ _ hj]
  · have := block_end 32 p x hp1 hp hx
    rw [← Bool.not_eq_true, hc]
    exact fun h => this h.symm

/-! ## `IPNet.Contains` on an IPv6 block -/

theorem quot_split (a h : Nat) (hh : h ≤ 32) :
    a / 2 ^ h = a / 2 ^ 32 * 2 ^ (32 - h) + a % 2 ^ 32 / 2 ^ h ∧
      a % 2 ^ 32 / 2 ^ h < 2 ^ (32 - h) := by
  have e : (2 : Nat) ^ 32 = 2 ^ h * 2 ^ (32 - h) := by
    rw [← pow_add]; congr 1; omega
  constructor
  · conv_lhs => rw [← Nat.div_add_mod a (2 ^ 32)]
    rw [e, show 2 ^ h * 2 ^ (32 - h) * (a / (2 ^ h * 2 ^ (32 - h))) + a % (2 ^ h * 2 ^ (32 - h))
        = a % (2 ^ h * 2 ^ (32 - h)) + 2 ^ h * (2 ^ (32 - h) * (a / (2 ^ h * 2 ^ (32 - h))))
        by ring, Nat.add_mul_div_left _ _ (by positivity)]
    ring
  · apply Nat.div_lt_of_lt_mul
    rw [← e]
    exact Nat.mod_lt _ (by positivity)

theorem quot_eq_iff (a b h : Nat) (hh : h ≤ 32) :
    a / 2 ^ h = b / 2 ^ h ↔
      a / 2 ^ 32 = b / 2 ^ 32 ∧ a % 2 ^ 32 / 2 ^ h = b % 2 ^ 32 / 2 ^ h := by
  obtain ⟨ha, ha1⟩ := quot_split a h hh
  obtain ⟨hb, hb1⟩ := quot_split b h hh
  rw [ha, hb]
  exact mul_add_eq_iff _ _ _ _ _ ha1 hb1

theorem quot_of_hi (a h : Nat) (hh : 32 ≤ h) : a / 2 ^ h = a / 2 ^ 32 / 2 ^ (h - 32) := by
  rw [Nat.div_div_eq_div_mul, ← pow_add, show 32 + (h - 32) = h by omega]

theorem base_not_mapped (x p : Nat) (hp : p < 96) :
    x / 2 ^ (128 - p) * 2 ^ (128 - p) / 2 ^ 32 ≠ 0xffff := by
  have e : (2 : Nat) ^ (128 - p) = 2 * 2 ^ (128 - p - 33) * 2 ^ 32 := by
    rw [show (2 : Nat) * 2 ^ (128 - p - 33) = 2 ^ (128 - p - 33 + 1) by rw [pow_succ]; ring,
      ← pow_add]
    congr 1
    omega
  rw [e, ← Nat.mul_assoc, Nat.mul_div_cancel _ (by positivity)]
  intro h
  have : 2 * (x / (2 * 2 ^ (128 - p - 33) * 2 ^ 32) * 2 ^ (128 - p - 33)) = 0xffff := by
    rw [← h]; ring
  omega

theorem contains_v6 (x p v : Nat) (hx : x < 2 ^ 128) (hp : p ≤ 128) (hv : v < 2 ^ 128) :
    net.IPNet.Contains (net.IPNet.mk (netip.beBytes 16 (x / 2 ^ (128 - p) * 2 ^ (128 - p)))
        (net.CIDRMaskLoop 16 p)) (netip.beBytes 16 v) = true ↔
      (p < 96 → v / 2 ^ 32 ≠ 0xffff) ∧ x / 2 ^ (128 - p) = v / 2 ^ (128 - p) := by
  have h256 : (256 : Nat) ^ 16 = 2 ^ 128 := by norm_num
  have h2564 : (256 : Nat) ^ 4 = 2 ^ 32 := by norm_num
  have hB : x / 2 ^ (128 - p) * 2 ^ (128 - p) < 2 ^ 128 := by
    simpa using block_lt 128 p x 0 hp hx (by positivity)
  have hBq : x / 2 ^ (128 - p) * 2 ^ (128 - p) / 2 ^ (128 - p) = x / 2 ^ (128 - p) :=
    Nat.mul_div_cancel _ (by positivity)
  by_cases hBm : x / 2 ^ (128 - p) * 2 ^ (128 - p) / 2 ^ 32 = 0xffff
  · have hp96 : 96 ≤ p := by
      by_contra hc
      exact base_not_mapped x p (by omega) hBm
    rw [contains_v6_mapped _ _ p (beBytes_length _ _) (beBytes_length _ _) (beBytes_lt _ _)
      (beBytes_lt _ _) hp hp96 ((beBytes16_mapped _ hB).2 hBm), beBytes16_mapped _ hv,
      beBytes16_drop, beBytes16_drop, beValue_beBytes, beValue_beBytes, h2564]
    have := quot_eq_iff (x / 2 ^ (128 - p) * 2 ^ (128 - p)) v (128 - p) (by omega)
    rw [hBq, hBm] at this
    rw [this]
    constructor
    · rintro ⟨h1, h2⟩
      exact ⟨fun hc => absurd hc (by omega), h1.symm, h2⟩
    · rintro ⟨_, h1, h2⟩
      exact ⟨h1.symm, h2⟩
  · rw [contains_v6_plain _ _ p (beBytes_length _ _) (beBytes_length _ _) (beBytes_lt _ _)
      (beBytes_lt _ _) hp (fun hc => hBm ((beBytes16_mapped _ hB).1 hc)), ne_eq,
      beBytes16_mapped _ hv, beValue_beBytes, beValue_beBytes, h256, Nat.mod_eq_of_lt hB,
      Nat.mod_eq_of_lt hv, hBq]
    constructor
    · rintro ⟨h1, h2⟩
      exact ⟨fun _ => h1, h2⟩
    · rintro ⟨h1, h2⟩
      refine ⟨?_, h2⟩
      by_cases hp96 : p < 96
      · exact h1 hp96
      · intro hvm
        have := (quot_eq_iff (x / 2 ^ (128 - p) * 2 ^ (128 - p)) v (128 - p) (by omega)).1
          (by rw [hBq]; exact h2)
        exact hBm (by rw [this.1]; exact hvm)

theorem contains_v6_clear (x p v : Nat) (hx : x < 2 ^ 128) (hp : p ≤ 128) (hv : v < 2 ^ 128)
    (hns : p < 96 → 0xffff00000000 / 2 ^ (128 - p) ≠ x / 2 ^ (128 - p)) :
    net.IPNet.Contains (net.IPNet.mk (netip.beBytes 16 (x / 2 ^ (128 - p) * 2 ^ (128 - p)))
        (net.CIDRMaskLoop 16 p)) (netip.beBytes 16 v) = true ↔
      x / 2 ^ (128 - p) = v / 2 ^ (128 - p) := by
  rw [contains_v6 x p v hx hp hv]
  constructor
  · exact fun h => h.2
  · intro h
    refine ⟨?_, h⟩
    intro hp96 hvm
    apply hns hp96
    rw [h, quot_of_hi v _ (by omega), quot_of_hi 0xffff00000000 _ (by omega), hvm,
      show (0xffff00000000 : Nat) / 2 ^ 32 = 0xffff by norm_num]

/-! ## The loop on an IPv6 block -/

theorem expandLoop_v6 (x p fuel : Nat) (hx : x < 2 ^ 128) (hp1 : 1 ≤ p) (hp : p ≤ 128)
    (hns : p < 96 → 0xffff00000000 / 2 ^ (128 - p) ≠ x / 2 ^ (128 - p))
    (hf : 2 ^ (128 - p) < fuel) :
    expandLoop (net.IPNet.mk (netip.beBytes 16 (x / 2 ^ (128 - p) * 2 ^ (128 - p)))
        (net.CIDRMaskLoop 16 p)) fuel
        (netip.beBytes 16 (x / 2 ^ (128 - p) * 2 ^ (128 - p))) [] =
      some ((List.range' 0 (2 ^ (128 - p))).map (fun j =>
        net.IP.String (netip.beBytes 16 (x / 2 ^ (128 - p) * 2 ^ (128 - p) + j)))) := by
  have h256 : (256 : Nat) ^ 16 = 2 ^ 128 := by norm_num
  apply expandLoop_block _ 16 _ _ _ _ fuel hf
  · intro j hj
    rw [contains_v6_clear x p _ hx hp (block_lt 128 p x j hp hx hj) hns, block_quot _ _ _ hj]
  · rw [← beBytes_mod 16 (x / 2 ^ (128 - p) * 2 ^ (128 - p) + 2 ^ (128 - p)), h256,
      ← Bool.not_eq_true,
      contains_v6_clear x p _ hx hp (Nat.mod_lt _ (by positivity)) hns]
    exact fun h => block_end 128 p x hp1 hp hx h.symm

theorem expandLoop_v6_cut (x p fuel : Nat) (hx : x < 2 ^ 128) (hp : p < 96)
    (hs : 0xffff00000000 / 2 ^ (128 - p) = x / 2 ^ (128 - p))
    (hf : 0xffff00000000 - x / 2 ^ (128 - p) * 2 ^ (128 - p) < fuel) :
    expandLoop (net.IPNet.mk (netip.beBytes 16 (x / 2 ^ (128 - p) * 2 ^ (128 - p)))
        (net.CIDRMaskLoop 16 p)) fuel
        (netip.beBytes 16 (x / 2 ^ (128 - p) * 2 ^ (128 - p))) [] =
      some ((List.range' 0 (0xffff00000000 - x / 2 ^ (128 - p) * 2 ^ (128 - p))).map (fun j =>
        net.IP.String (netip.beBytes 16 (x / 2 ^ (128 - p) * 2 ^ (128 - p) + j)))) := by
  have hle : x / 2 ^ (128 - p) * 2 ^ (128 - p) ≤ 0xffff00000000 := by
    rw [← hs]; exact Nat.div_mul_le_self _ _
  have hlt : 0xffff00000000 < x / 2 ^ (128 - p) * 2 ^ (128 - p) + 2 ^ (128 - p) := by
    rw [← hs]
    have := Nat.lt_mul_of_div_lt (Nat.lt_succ_self (0xffff00000000 / 2 ^ (128 - p)))
      (show 0 < 2 ^ (128 - p) by positivity)
    rw [Nat.succ_mul] at this
    exact this
  apply expandLoop_block _ 16 _ _ _ _ fuel hf
  · intro j hj
    have hv : x / 2 ^ (128 - p) * 2 ^ (128 - p) + j < 0xffff00000000 := by omega
    rw [contains_v6 x p _ hx (by omega) (by omega), block_quot _ _ _ (by omega)]
    refine ⟨fun _ => ?_, rfl⟩
    have : (x / 2 ^ (128 - p) * 2 ^ (128 - p) + j) / 2 ^ 32 < 0xffff :=
      Nat.div_lt_of_lt_mul (by norm_num; omega)
    omega
  · rw [show x / 2 ^ (128 - p) * 2 ^ (128 - p) +
        (0xffff00000000 - x / 2 ^ (128 - p) * 2 ^ (128 - p)) = 0xffff00000000 by omega,
      ← Bool.not_eq_true, contains_v6 x p _ hx (by omega) (by norm_num)]
    rintro ⟨h1, _⟩
    exact h1 hp (by norm_num)

/-! ## Parsed IPv4 and IPv6 blocks -/

theorem bitLen_z4 (a : netip.Addr) (h : a.z = netip.Z.z4) : a.BitLen = 32 := by
  unfold netip.Addr.BitLen
  rw [h]

theorem parseCIDR_v4 (s : String) (ip : net.IP) (ipnet : net.IPNet) (p : Nat)
    (h : net.ParseCIDR s = Except.ok (ip, ipnet)) (hm : ipnet.Mask = net.CIDRMask p 32)
    (hp : p ≤ 32) :
    ∃ x, x < 2 ^ 32 ∧ ip = netip.beBytes 16 (0xffff00000000 + x) ∧
      ipnet = net.IPNet.mk (netip.beBytes 4 (x / 2 ^ (32 - p) * 2 ^ (32 - p)))
        (net.CIDRMaskLoop 4 p) := by
  obtain ⟨a, hshape, hip, hbase, q, hq, hmask⟩ := parseCIDR_ok s ip ipnet h
  rw [CIDRMask_eq p 32 (Or.inl rfl) hp] at hm
  rcases hshape with ⟨_, x, hx, hax⟩ | ⟨hbl, _⟩
  · refine ⟨x, hx, ?_, ?_⟩
    · rw [hip, netip.Addr.As16, hax, Nat.mod_eq_of_lt (by omega)]
    · have hip1 : ip = netip.beBytes 16 (0xffff00000000 + x) := by
        rw [hip, netip.Addr.As16, hax, Nat.mod_eq_of_lt (by omega)]
      rw [hm, hip1, mask_v4 x p hx hp] at hbase
      cases ipnet
      simp only at hbase hm
      rw [hbase, hm]
  · rw [hbl] at hq hmask
    rw [CIDRMask_eq q 128 (Or.inr rfl) hq] at hmask
    have h1 := congrArg List.length hm
    rw [hmask, CIDRMaskLoop_length, CIDRMaskLoop_length] at h1
    omega

theorem parseCIDR_v6 (s : String) (ip : net.IP) (ipnet : net.IPNet) (p : Nat)
    (h : net.ParseCIDR s = Except.ok (ip, ipnet)) (hm : ipnet.Mask = net.CIDRMask p 128)
    (hp : p ≤ 128) :
    ∃ x, x < 2 ^ 128 ∧ ip = netip.beBytes 16 x ∧
      ipnet = net.IPNet.mk (netip.beBytes 16 (x / 2 ^ (128 - p) * 2 ^ (128 - p)))
        (net.CIDRMaskLoop 16 p) := by
  obtain ⟨a, hshape, hip, hbase, q, hq, hmask⟩ := parseCIDR_ok s ip ipnet h
  rw [CIDRMask_eq p 128 (Or.inr rfl) hp] at hm
  rcases hshape with ⟨hz, _⟩ | ⟨_, hax⟩
  · rw [bitLen_z4 a hz] at hq hmask
    rw [CIDRMask_eq q 32 (Or.inl rfl) hq] at hmask
    have h1 := congrArg List.length hm
    rw [hmask, CIDRMaskLoop_length, CIDRMaskLoop_length] at h1
    omega
  · have hip1 : ip = netip.beBytes 16 a.addr := by
      rw [hip, netip.Addr.As16, Nat.mod_eq_of_lt hax]
    refine ⟨a.addr, hax, hip1, ?_⟩
    rw [hm, hip1, mask_v6 _ p hax hp] at hbase
    cases ipnet
    simp only at hbase hm
    rw [hbase, hm]

/-! ## `expandCIDR` on blocks with a prefix length of at least one -/

theorem expandCIDR_of_loop (fuel : Nat) (cidr : String) (ip : net.IP) (ipnet : net.IPNet)
    (f : Nat → String) (cnt : Nat) (h : net.ParseCIDR cidr = Except.ok (ip, ipnet))
    (hl : expandLoop ipnet fuel (net.IP.Mask ip ipnet.Mask) [] =
      some ((List.range' 0 cnt).map f)) (hc : 2 ≤ cnt) :
    expandCIDR fuel cidr = some (Outcome.ret ((List.range' 1 (cnt - 2)).map f, none)) := by
  unfold expandCIDR
  rw [h]
  simp only [hl, sliceInner_map f cnt hc]

theorem two_le_pow (h : Nat) (hh : 1 ≤ h) : 2 ≤ 2 ^ h := by
  calc 2 = 2 ^ 1 := by norm_num
    _ ≤ 2 ^ h := Nat.pow_le_pow_right (by norm_num) hh

theorem expandCIDR_v4_hosts (cidr : String) (ip : net.IP) (ipnet : net.IPNet) (p fuel : Nat)
    (h : net.ParseCIDR cidr = Except.ok (ip, ipnet)) (hm : ipnet.Mask = net.CIDRMask p 32)
    (hp1 : 1 ≤ p) (hp : p ≤ 31) (hf : 2 ^ (32 - p) < fuel) :
    expandCIDR fuel cidr = some (Outcome.ret ((List.range' 1 (2 ^ (32 - p) - 2)).map
      (fun k => net.IP.String (netip.beBytes 4 (netip.beValue ipnet.IP + k))), none)) ∧
    netip.beValue ipnet.IP = netip.beValue ip % 2 ^ 32 / 2 ^ (32 - p) * 2 ^ (32 - p) ∧
    netip.beValue ipnet.IP + 2 ^ (32 - p) ≤ 2 ^ 32 := by
  obtain ⟨x, hx, hip, hnet⟩ := parseCIDR_v4 cidr ip ipnet p h hm (by omega)
  have hB : x / 2 ^ (32 - p) * 2 ^ (32 - p) < 2 ^ 32 := by
    simpa using block_lt 32 p x 0 (by omega) hx (by positivity)
  have hv : netip.beValue ipnet.IP = x / 2 ^ (32 - p) * 2 ^ (32 - p) := by
    rw [hnet, beValue_beBytes, Nat.mod_eq_of_lt (by norm_num; omega)]
  have hxv : netip.beValue ip % 2 ^ 32 = x := by
    rw [hip, beValue_beBytes]
    norm_num
    omega
  refine ⟨?_, by rw [hv, hxv], ?_⟩
  · rw [hv]
    apply expandCIDR_of_loop fuel cidr ip ipnet _ _ h _ (two_le_pow _ (by omega))
    have hmask : net.IP.Mask ip ipnet.Mask =
        netip.beBytes 4 (x / 2 ^ (32 - p) * 2 ^ (32 - p)) := by
      rw [hip, hnet]
      exact mask_v4 x p hx (by omega)
    rw [hmask, hnet]
    exact expandLoop_v4 x p fuel hx hp1 (by omega) hf
  · rw [hv]
    have hq := block_quot_lt 32 p x (by omega) hx
    have h1 : (x / 2 ^ (32 - p) + 1) * 2 ^ (32 - p) ≤ 2 ^ p * 2 ^ (32 - p) :=
      Nat.mul_le_mul_right _ hq
    rw [← pow_add, show p + (32 - p) = 32 by omega, add_mul, one_mul] at h1
    exact h1

theorem expandCIDR_v6_hosts (cidr : String) (ip : net.IP) (ipnet : net.IPNet) (p fuel : Nat)
    (h : net.ParseCIDR cidr = Except.ok (ip, ipnet)) (hm : ipnet.Mask = net.CIDRMask p 128)
    (hp1 : 1 ≤ p) (hp : p ≤ 127)
    (hns : p < 96 → 0xffff00000000 / 2 ^ (128 - p) ≠ netip.beValue ip / 2 ^ (128 - p))
    (hf : 2 ^ (128 - p) < fuel) :
    expandCIDR fuel cidr = some (Outcome.ret ((List.range' 1 (2 ^ (128 - p) - 2)).map
      (fun k => net.IP.String (netip.beBytes 16 (netip.beValue ipnet.IP + k))), none)) ∧
    netip.beValue ipnet.IP = netip.beValue ip % 2 ^ 128 / 2 ^ (128 - p) * 2 ^ (128 - p) ∧
    netip.beValue ipnet.IP + 2 ^ (128 - p) ≤ 2 ^ 128 := by
  obtain ⟨x, hx, hip, hnet⟩ := parseCIDR_v6 cidr ip ipnet p h hm (by omega)
  have hB : x / 2 ^ (128 - p) * 2 ^ (128 - p) < 2 ^ 128 := by
    simpa using block_lt 128 p x 0 (by omega) hx (by positivity)
  have hv : netip.beValue ipnet.IP = x / 2 ^ (128 - p) * 2 ^ (128 - p) := by
    rw [hnet, beValue_beBytes, Nat.mod_eq_of_lt (by norm_num; omega)]
  have hxv0 : netip.beValue ip = x := by
    rw [hip, beValue_beBytes, Nat.mod_eq_of_lt (by norm_num; omega)]
  have hxv : netip.beValue ip % 2 ^ 128 = x := by
    rw [hxv0, Nat.mod_eq_of_lt hx]
  rw [hxv0] at hns
  refine ⟨?_, by rw [hv, hxv], ?_⟩
  · rw [hv]
    apply expandCIDR_of_loop fuel cidr ip ipnet _ _ h _ (two_le_pow _ (by omega))
    have hmask : net.IP.Mask ip ipnet.Mask =
        netip.beBytes 16 (x / 2 ^ (128 - p) * 2 ^ (128 - p)) := by
      rw [hip, hnet]
      exact mask_v6 x p hx (by omega)
    rw [hmask, hnet]
    exact expandLoop_v6 x p fuel hx hp1 (by omega) hns hf
  · rw [hv]
    have hq := block_quot_lt 128 p x (by omega) hx
    have h1 : (x / 2 ^ (128 - p) + 1) * 2 ^ (128 - p) ≤ 2 ^ p * 2 ^ (128 - p) :=
      Nat.mul_le_mul_right _ hq
    rw [← pow_add, show p + (128 - p) = 128 by omega, add_mul, one_mul] at h1
    exact h1

/-- On every block with a prefix length of at least one
and with at least two addresses (IPv4: `1 ≤ p ≤ 31`, IPv6: `1 ≤ p ≤ 127`; for IPv6 with
`p < 96` the block must not hold `::ffff:0:0`), `expandCIDR` returns, with enough fuel, the
texts of `base + 1, ..., base + 2^(bits-p) - 2` in this order and no error, where `base` is
the address with its host bits cleared. -/
theorem expandCIDR_hosts (cidr : String) (ip : net.IP) (ipnet : net.IPNet)
    (p bits fuel : Nat) (h : net.ParseCIDR cidr = Except.ok (ip, ipnet))
    (hm : ipnet.Mask = net.CIDRMask p bits) (hb : bits = 32 ∨ bits = 128)
    (hp1 : 1 ≤ p) (hp : p < bits)
    (hns : bits = 128 → p < 96 →
      0xffff00000000 / 2 ^ (128 - p) ≠ netip.beValue ip / 2 ^ (128 - p))
    (hf : 2 ^ (bits - p) < fuel) :
    expandCIDR fuel cidr = some (Outcome.ret ((List.range' 1 (2 ^ (bits - p) - 2)).map
      (fun k => net.IP.String (netip.beBytes (bits / 8) (netip.beValue ipnet.IP + k))),
      none)) ∧
    netip.beValue ipnet.IP =
      netip.beValue ip % 2 ^ bits / 2 ^ (bits - p) * 2 ^ (bits - p) ∧
    netip.beValue ipnet.IP + 2 ^ (bits - p) ≤ 2 ^ bits := by
  rcases hb with rfl | rfl
  · exact expandCIDR_v4_hosts cidr ip ipnet p fuel h hm hp1 (by omega) hf
  · exact expandCIDR_v6_hosts cidr ip ipnet p fuel h hm hp1 (by omega) (hns rfl) hf

/-- The block `10.0.0.0/30` expands to `10.0.0.1` and `10.0.0.2`. -/
theorem expandCIDR_hosts_slash30 :
    expandCIDR 5 "10.0.0.0/30" = some (Outcome.ret (["10.0.0.1", "10.0.0.2"], none)) := by
  have hparse : net.ParseCIDR "10.0.0.0/30" = Except.ok
      ([0, 0, 0, 0, 0, 0, 0, 0, 0, 0, 255, 255, 10, 0, 0, 0],
        net.IPNet.mk [10, 0, 0, 0] [255, 255, 255, 252]) := by rfl
  have := (expandCIDR_hosts "10.0.0.0/30" _ _ 30 32 5 hparse (by decide) (Or.inl rfl)
    (by decide) (by decide) (by intro h; cases h) (by decide)).1
  rw [this]
  decide

/-- The block `192.168.1.0/24` expands to 254 addresses from `192.168.1.1` to
`192.168.1.254`. -/
theorem expandCIDR_hosts_slash24 :
    ∃ ips, expandCIDR 257 "192.168.1.0/24" = some (Outcome.ret (ips, none)) ∧
      ips.length = 254 ∧ ips.head? = some "192.168.1.1" ∧
      ips.getLast? = some "192.168.1.254" := by
  have hparse : net.ParseCIDR "192.168.1.0/24" = Except.ok
      ([0, 0, 0, 0, 0, 0, 0, 0, 0, 0, 255, 255, 192, 168, 1, 0],
        net.IPNet.mk [192, 168, 1, 0] [255, 255, 255, 0]) := by rfl
  have := (expandCIDR_hosts "192.168.1.0/24" _ _ 24 32 257 hparse (by decide) (Or.inl rfl)
    (by decide) (by decide) (by intro h; cases h) (by decide)).1
  refine ⟨_, this, by simp, ?_, ?_⟩
  · rw [show 2 ^ (32 - 24) - 2 = 253 + 1 by norm_num, List.range'_succ, List.map_cons,
      List.head?_cons]
    decide
  · rw [show 2 ^ (32 - 24) - 2 = 253 + 1 by norm_num, List.range'_1_concat, List.map_append,
      List.map_singleton, List.getLast?_concat]
    decide

/-- The IPv6 block `2001:db8::/126` expands to `2001:db8::1` and `2001:db8::2`. -/
theorem expandCIDR_hosts_v6_slash126 :
    expandCIDR 5 "2001:db8::/126" =
      some (Outcome.ret (["2001:db8::1", "2001:db8::2"], none)) := by
  have hparse : net.ParseCIDR "2001:db8::/126" = Except.ok
      ([0x20, 0x01, 0x0d, 0xb8, 0, 0, 0, 0, 0, 0, 0, 0, 0, 0, 0, 0],
        net.IPNet.mk [0x20, 0x01, 0x0d, 0xb8, 0, 0, 0, 0, 0, 0, 0, 0, 0, 0, 0, 0]
          [255, 255, 255, 255, 255, 255, 255, 255, 255, 255, 255, 255, 255, 255, 255, 252]) := by
    rfl
  have := (expandCIDR_hosts "2001:db8::/126" _ _ 126 128 5 hparse (by decide) (Or.inr rfl)
    (by decide) (by decide) (by intro _ h; omega) (by decide)).1
  rw [this]
  decide

theorem sliceInner_single (a : String) :
    sliceInner [a] = Outcome.panic "runtime error: slice bounds out of range [1:0]" := by
  unfold sliceInner
  have : ((([a].length : Nat) : Int) - 1) = 0 := by simp
  rw [this, if_neg (by decide), if_pos (by decide)]
  rfl

/-- On a single-address block (`/32`, `/128`) the loop collects one address and the slice
`ips[1:0]` panics. -/
theorem expandCIDR_single (cidr : String) (ip : net.IP) (ipnet : net.IPNet)
    (bits fuel : Nat) (h : net.ParseCIDR cidr = Except.ok (ip, ipnet))
    (hm : ipnet.Mask = net.CIDRMask bits bits) (hb : bits = 32 ∨ bits = 128)
    (hf : 1 < fuel) :
    expandCIDR fuel cidr =
      some (Outcome.panic "runtime error: slice bounds out of range [1:0]") := by
  have key : ∀ f : Nat → String, ∀ base,
      expandLoop ipnet fuel (net.IP.Mask ip ipnet.Mask) [] =
        some ((List.range' 0 1).map (fun j => f (base + j))) →
      expandCIDR fuel cidr =
        some (Outcome.panic "runtime error: slice bounds out of range [1:0]") := by
    intro f base hl
    unfold expandCIDR
    rw [h]
    simp only [hl, List.range', List.map, sliceInner_single]
  rcases hb with rfl | rfl
  · obtain ⟨x, hx, hip, hnet⟩ := parseCIDR_v4 cidr ip ipnet 32 h hm (by omega)
    apply key (fun v => net.IP.String (netip.beBytes 4 v)) (x / 2 ^ (32 - 32) * 2 ^ (32 - 32))
    have hmask : net.IP.Mask ip ipnet.Mask =
        netip.beBytes 4 (x / 2 ^ (32 - 32) * 2 ^ (32 - 32)) := by
      rw [hip, hnet]
      exact mask_v4 x 32 hx (by omega)
    rw [hmask, hnet]
    exact expandLoop_v4 x 32 fuel hx (by omega) (by omega) (by simpa using hf)
  · obtain ⟨x, hx, hip, hnet⟩ := parseCIDR_v6 cidr ip ipnet 128 h hm (by omega)
    apply key (fun v => net.IP.String (netip.beBytes 16 v))
      (x / 2 ^ (128 - 128) * 2 ^ (128 - 128))
    have hmask : net.IP.Mask ip ipnet.Mask =
        netip.beBytes 16 (x / 2 ^ (128 - 128) * 2 ^ (128 - 128)) := by
      rw [hip, hnet]
      exact mask_v6 x 128 hx (by omega)
    rw [hmask, hnet]
    exact expandLoop_v6 x 128 fuel hx (by omega) (by omega) (by omega) (by simpa using hf)

/-- The loop on `::/0` stops at `::ffff:0:0`, the first address that `IPNet.Contains`
reads as IPv4: it collects `0xffff00000000` addresses of the `2^128` in the block. -/
theorem expandLoop_v6_slash0 :
    ∃ ip ipnet, net.ParseCIDR "::/0" = Except.ok (ip, ipnet) ∧
      ∀ fuel, 0xffff00000000 < fuel →
        expandLoop ipnet fuel (net.IP.Mask ip ipnet.Mask) [] =
          some ((List.range' 0 0xffff00000000).map
            (fun j => net.IP.String (netip.beBytes 16 j))) := by
  refine ⟨_, _, rfl, ?_⟩
  intro fuel hf
  have := expandLoop_v6_cut 0 0 fuel (by norm_num) (by norm_num) (by norm_num)
    (by simpa using hf)
  simpa using this

/-! ## Claims -/

/-- C3: for every byte sequence `ip` (every byte below 256) `incIP` keeps the length and
leaves the big-endian encoding, on the same number of bytes, of `(v + 1) mod 2^(8n)`, where
`v` is the number that `ip` encodes big-endian and `n` its length. -/
theorem incIP_bigEndian (ip : net.IP) (h : ∀ b ∈ ip, b < 256) :
    (incIP ip).length = ip.length ∧
    incIP ip = netip.beBytes ip.length ((netip.beValue ip + 1) % 2 ^ (8 * ip.length)) := by
  refine ⟨incIP_length ip, ?_⟩
  rw [incIP_eq_beBytes ip h, pow_mul]
  norm_num

/-- C3 at `10.0.0.255`: the carry crosses one byte and gives `10.0.1.0`. -/
theorem incIP_bigEndian_witness :
    (∀ b ∈ [10, 0, 0, 255], b < 256) ∧ incIP [10, 0, 0, 255] = [10, 0, 1, 0] ∧
    incIP [10, 0, 0, 255] = netip.beBytes 4 ((netip.beValue [10, 0, 0, 255] + 1) % 2 ^ (8 * 4)) :=
  ⟨by decide, by decide, (incIP_bigEndian [10, 0, 0, 255] (by decide)).2⟩

/-- C4 as stated fails: the containment check of `0.0.0.0/0` is not false for
`incIP(255.255.255.254)`. -/
theorem incIP_slash0_contained_counterexample :
    ¬ (∀ ip ipnet, net.ParseCIDR "0.0.0.0/0" = Except.ok (ip, ipnet) →
        ipnet.Contains (incIP [255, 255, 255, 254]) = false) := by
  intro h
  have := h _ _ parseCIDR_slash0
  revert this
  decide

/-- C4 amended: `incIP(255.255.255.254)` is `255.255.255.255`, the block parsed from
`0.0.0.0/0` contains it, and it also contains the next value, `0.0.0.0`, to which `incIP`
wraps around. -/
theorem incIP_slash0_contained :
    incIP [255, 255, 255, 254] = [255, 255, 255, 255] ∧
    incIP [255, 255, 255, 255] = [0, 0, 0, 0] ∧
    ∃ ip ipnet, net.ParseCIDR "0.0.0.0/0" = Except.ok (ip, ipnet) ∧
      ipnet.Contains (incIP [255, 255, 255, 254]) = true ∧
      ipnet.Contains (incIP (incIP [255, 255, 255, 254])) = true :=
  ⟨by decide, by decide, _, _, parseCIDR_slash0, by decide, by decide⟩

/-- C1 at the failing input `0.0.0.0/0`: whatever the number of loop rounds allowed,
`expandCIDR` has not returned. -/
theorem expandCIDR_slash0_never_returns (fuel : Nat) : expandCIDR fuel "0.0.0.0/0" = none := by
  unfold expandCIDR
  rw [parseCIDR_slash0]
  dsimp only
  rw [expandLoop_slash0 fuel _ [] (by decide)]

/-- C2 at the failing input `0.0.0.0/0`: the loop of `expandCIDR`, started at the masked
base of the parsed block, never reaches an address that the block does not contain. -/
theorem expandLoop_slash0_never_stops :
    ∃ ip ipnet, net.ParseCIDR "0.0.0.0/0" = Except.ok (ip, ipnet) ∧
      ∀ fuel, expandLoop ipnet fuel (net.IP.Mask ip ipnet.Mask) [] = none :=
  ⟨_, _, parseCIDR_slash0, fun fuel => expandLoop_slash0 fuel _ [] (by decide)⟩

/-- C10 at the failing input `10.0.0.1/32`: once the loop has run its two rounds the slice
expression `ips[1 : len(ips)-1]` is `ips[1:0]` and `expandCIDR` panics. -/
theorem expandCIDR_slash32_panics (fuel : Nat) :
    expandCIDR (fuel + 2) "10.0.0.1/32" =
      some (Outcome.panic "runtime error: slice bounds out of range [1:0]") := by
  rfl

/-- C5: when `net.ParseCIDR` rejects the line `cidr`, `expandCIDR` returns the error with
an empty list, the producer round sends nothing and writes the one line
`Error parsing CIDR <cidr>: invalid CIDR address: <cidr>`, and the values sent over a whole
input are those sent when the line is left out. -/
theorem expandCIDR_parse_error (fuel : Nat) (cidr : String) (err : net.ParseError)
    (h : net.ParseCIDR cidr = Except.error err) :
    expandCIDR fuel cidr = some (Outcome.ret ([], some err)) ∧
    (∀ st, producerStep fuel st cidr = some (Outcome.ret
      { sent := st.sent
        stderr := st.stderr ++
          ["Error parsing CIDR " ++ cidr ++ ": invalid CIDR address: " ++ cidr ++ "\n"] })) ∧
    ∀ before after st,
      sentOf (producer fuel (before ++ cidr :: after) st) =
        sentOf (producer fuel (before ++ after) st) := by
  have hx : expandCIDR fuel cidr = some (Outcome.ret ([], some err)) := by
    unfold expandCIDR; rw [h]
  have hstep : ∀ st, producerStep fuel st cidr = some (Outcome.ret
      { sent := st.sent
        stderr := st.stderr ++
          ["Error parsing CIDR " ++ cidr ++ ": invalid CIDR address: " ++ cidr ++ "\n"] }) := by
    intro st
    unfold producerStep
    rw [hx, parseCIDR_error_form cidr err h]
    have e : ∀ x : String, ": " ++ ("invalid CIDR address: " ++ x) =
        ": invalid CIDR address: " ++ x := fun x => by
      rw [← String.append_assoc]; rfl
    simp [net.ParseError.Error, String.append_assoc, e]
  refine ⟨hx, hstep, ?_⟩
  intro before after st
  rw [producer_append, producer_append]
  rcases producer fuel before st with _ | ⟨st1 | msg⟩
  · rfl
  · dsimp only
    rw [producer, hstep st1]
    exact producer_sent fuel after _ _ rfl
  · rfl

/-- C5 at the line `not-a-cidr`. -/
theorem expandCIDR_parse_error_witness :
    expandCIDR 0 "not-a-cidr" =
      some (Outcome.ret ([], some { Kind := "CIDR address", Text := "not-a-cidr" })) ∧
    producerStep 0 { sent := ["10.0.0.1"], stderr := [] } "not-a-cidr" = some (Outcome.ret
      { sent := ["10.0.0.1"]
        stderr := ["Error parsing CIDR not-a-cidr: invalid CIDR address: not-a-cidr\n"] }) :=
  ⟨(expandCIDR_parse_error 0 "not-a-cidr" _ rfl).1,
   (expandCIDR_parse_error 0 "not-a-cidr" { Kind := "CIDR address", Text := "not-a-cidr" }
      rfl).2.1 _⟩

theorem doWorkItem_domain (opts : Opts) (LookupAddr : String → Option (List String))
    (ip : String) (addr : List String) (hd : opts.Domain = true)
    (h : LookupAddr ip = some addr) :
    doWorkItem opts LookupAddr ip = addr.map (fun a => TrimRight a "." ++ "\n") := by
  simp only [doWorkItem, h, hd, if_true, Println_one]

theorem doWorkItem_default (opts : Opts) (LookupAddr : String → Option (List String))
    (ip : String) (addr : List String) (hd : opts.Domain = false)
    (h : LookupAddr ip = some addr) :
    doWorkItem opts LookupAddr ip = addr.map (fun a => ip ++ " " ++ "\t" ++ " " ++ a ++ "\n") := by
  simp only [doWorkItem, h, hd, Println_three]
  rfl

/-- C6 as stated fails: in default mode the hostname `dns.google.` is emitted with its
trailing dot; no line that ends in the stripped hostname and a newline is written. -/
theorem doWorkItem_default_keeps_dot_counterexample :
    doWorkItem (Opts.mk 8 "" "udp" 53 false) (fun _ => some ["dns.google."]) "8.8.8.8" =
      ["8.8.8.8 \t dns.google.\n"] ∧
    ∀ lead : String,
      doWorkItem (Opts.mk 8 "" "udp" 53 false) (fun _ => some ["dns.google."]) "8.8.8.8" ≠
        [lead ++ stripRootDot "dns.google." ++ "\n"] := by
  have h1 : doWorkItem (Opts.mk 8 "" "udp" 53 false) (fun _ => some ["dns.google."])
      "8.8.8.8" = ["8.8.8.8 \t dns.google.\n"] := by decide
  refine ⟨h1, ?_⟩
  intro lead h
  rw [h1] at h
  have h2 := congrArg (fun l => l.map (fun s : String => s.data.reverse.take 2)) h
  have h3 : stripRootDot "dns.google." = "dns.google" := by decide
  simp only [List.map, h3, String.data_append, List.reverse_append] at h2
  simp at h2

/-- C6 amended: for the hostnames `addr` of a successful lookup, none of which ends in two
dots, in domain-only mode each emitted line is the hostname with a single trailing dot
removed when it ends in a dot and unchanged otherwise, followed by a newline; in default
mode each emitted line ends in the hostname as returned, trailing dot included, and a
newline. -/
theorem doWorkItem_hostname (opts : Opts) (LookupAddr : String → Option (List String))
    (ip : String) (addr : List String) (h : LookupAddr ip = some addr)
    (hn : ∀ a ∈ addr, ¬ List.IsSuffix ['.', '.'] a.data) :
    (opts.Domain = true →
      doWorkItem opts LookupAddr ip = addr.map (fun a => stripRootDot a ++ "\n")) ∧
    (opts.Domain = false →
      ∃ lead, doWorkItem opts LookupAddr ip = addr.map (fun a => lead ++ a ++ "\n")) := by
  constructor
  · intro hd
    rw [doWorkItem_domain opts LookupAddr ip addr hd h]
    apply List.map_congr_left
    intro a ha
    rw [TrimRight_eq_stripRootDot a (hn a ha)]
  · intro hd
    exact ⟨ip ++ " " ++ "\t" ++ " ", doWorkItem_default opts LookupAddr ip addr hd h⟩

/-- C6 amended, at the hostnames `dns.google.` and `localhost` in domain-only mode. -/
theorem doWorkItem_hostname_witness :
    doWorkItem (Opts.mk 8 "" "udp" 53 true) (fun _ => some ["dns.google.", "localhost"])
      "8.8.8.8" = ["dns.google\n", "localhost\n"] :=
  (doWorkItem_hostname (Opts.mk 8 "" "udp" 53 true)
    (fun _ => some ["dns.google.", "localhost"]) "8.8.8.8" ["dns.google.", "localhost"] rfl
    (by decide)).1 rfl

/-- C7 at the failing input (default mode, address `8.8.8.8`, hostname `dns.google.`): the
line written is the address, a space, a tab, a space and the hostname, not the address, one
tab and the hostname. -/
theorem doWorkItem_default_space_tab_space :
    doWorkItem (Opts.mk 8 "" "udp" 53 false) (fun _ => some ["dns.google."]) "8.8.8.8" =
      ["8.8.8.8 \t dns.google.\n"] ∧
    doWorkItem (Opts.mk 8 "" "udp" 53 false) (fun _ => some ["dns.google."]) "8.8.8.8" ≠
      ["8.8.8.8\tdns.google.\n"] := by
  decide

/-- C8 at the failing input (resolver host `::1`, port 53): for every network and address it
is called with, `Dial` builds the endpoint `::1:53`, which the dial rejects with `too many
colons in address` before it connects to anything. -/
theorem newResolver_dial_ipv6_host :
    ∃ r, newResolver (Opts.mk 8 "::1" "udp" 53 false) = some r ∧ r.PreferGo = true ∧
      ∀ network address, r.Dial network address =
        net.DialResult.addrError (net.AddrError.mk "too many colons in address" "::1:53") := by
  refine ⟨_, rfl, rfl, fun _ _ => ?_⟩
  show net.DialContext "udp" (sprintfHostPort "::1" 53) = _
  decide

/-- With the IPv4 resolver host `1.1.1.1`, port 53 and protocol `tcp`, every call of `Dial`
goes on to host `1.1.1.1`, port `53` over `tcp`, whatever network and address it is given. -/
theorem newResolver_dial_ipv4_host :
    ∃ r, newResolver (Opts.mk 8 "1.1.1.1" "tcp" 53 false) = some r ∧ r.PreferGo = true ∧
      ∀ network address, r.Dial network address =
        net.DialResult.target (net.DialTarget.mk "tcp" "1.1.1.1" "53") := by
  refine ⟨_, rfl, rfl, fun _ _ => ?_⟩
  show net.DialContext "tcp" (sprintfHostPort "1.1.1.1" 53) = _
  decide

end Hakrevdns
